import Mathlib

/-!
Verification development for the universalUi library.

The definitions below are a shallow embedding of the C++ sources:

* `src/logBuffer.h` — class `LogBuffer`, a circular rolling log buffer.
  The header contains two variants of the class.  Both share, line for
  line, `incWithRollover`, `bufEnd`, `write(const char *)`,
  `write(uint8_t)` (modulo the missing `bufEnd()` call in the second
  variant's byte writer, which is not modelled since only `write(const
  char*)` call sequences are considered), `clear()` and the two-part
  `getLog(const byte part)` accessor; the first variant has the buffer
  capacity fixed by the macro `LOGBUF_LENGTH` while the second carries it
  in the field `_bufSize`.  The embedding carries the capacity in the
  field `bufSize`, so it covers both variants.  The second variant
  additionally has `copyLog` and the chunked
  `getLog(uint8_t *, size_t, size_t, size_t &)`, embedded below as
  `copyLog` and `getLogChunked`.

  Bytes are modelled as `Nat` (the source stores `char`/`uint8_t`; no
  arithmetic is performed on them, so the value range is irrelevant).
  The buffer memory is a function `Nat → Nat`; the constructors
  initialise only cells `0` and `capacity` (C++ leaves the rest
  indeterminate), which the embedding reflects by taking an arbitrary
  initial memory `mem`.  The `word` (16-bit) indices of the first
  variant and the `size_t` indices of the second never wrap in the
  increments below because they stay below the capacity; the theorems
  carry explicit capacity bounds for this.  `size_t` subtraction in the
  chunked reader is modelled exactly, as subtraction modulo `2 ^ 32`
  (`csub`).

* `src/hc12tool.h` — class `Hc12Tool` (first variant in the file; the
  claims' line numbers refer to it).  The serial channel is modelled as
  a mock transport: a baud rate plus a response function
  `resp : Nat → List Nat` giving the bytes that arrive in reply to an
  "AT" probe sent while the channel is set to a given baud rate.
  `readExpectedResponse` is embedded as a pure function consuming a
  static list of pending input bytes (timing, `delay` and the
  `readCycles` timeout loop collapse: with a static input the loop
  terminates exactly when the input is exhausted or the match is
  decided).  Output-only calls (`logActivity`, `dumpVerboseChar`,
  debug printing) produce no observable state for the claims except
  where a claim is about logging; `dumpPendingBytes` empties the
  receive buffer, which the mock reflects by giving each probe exactly
  the response bytes for its baud rate (a failed tolerant probe has
  already consumed the whole buffer, and every probe of the final
  baud-rate scan is preceded by `dumpPendingBytes()`).
-/

/-! ## Byte-level primitives -/

/-- Pointwise update of a memory modelled as a function. -/
def store (b : Nat → Nat) (i v : Nat) : Nat → Nat :=
  fun j => if j = i then v else b j

/-- The truncation marker `clippedMarker` = `"[...] "` of `LogBuffer`,
as byte values. -/
def markerBytes : List Nat := [91, 46, 46, 46, 93, 32]

/-! ## LogBuffer state and operations (`src/logBuffer.h`) -/

/-- State of a `LogBuffer`: capacity (`LOGBUF_LENGTH` resp. `_bufSize`),
the `_encodePercent` flag, the buffer memory `buf`, the append cursor
`appendIndex` and the `clipped` flag. -/
structure LogBuffer where
  bufSize : Nat
  encodePercent : Bool
  buf : Nat → Nat
  appendIndex : Nat
  clipped : Bool

namespace LogBuffer

/-- Constructor: `buf[LOGBUF_LENGTH] = '\0'; buf[0] = '\0';` with all other
cells left at the (arbitrary) initial memory `mem`. -/
def mk0 (capacity : Nat) (encodePercent : Bool) (mem : Nat → Nat) : LogBuffer :=
  { bufSize := capacity
    encodePercent := encodePercent
    buf := store (store mem capacity 0) 0 0
    appendIndex := 0
    clipped := false }

/-- `incWithRollover`: returns the original index (the cell to write),
the incremented index with rollover to `0`, and whether the increment
rolled over (the caller ORs this into `clipped`). -/
def incWithRollover (cap idx : Nat) : Nat × Nat × Bool :=
  if idx + 1 ≥ cap then (idx, 0, true) else (idx, idx + 1, false)

/-- One raw cell write `buf[incWithRollover(appendIndex)] = c`. -/
def writeRaw (st : LogBuffer) (c : Nat) : LogBuffer :=
  let r := incWithRollover st.bufSize st.appendIndex
  { st with
    buf := store st.buf r.1 c
    appendIndex := r.2.1
    clipped := st.clipped || r.2.2 }

/-- Body of the `write` loop for one source byte: store the byte, and if
`_encodePercent` is set and the byte is `'%'` (37), store it a second
time. -/
def writeCharStep (st : LogBuffer) (c : Nat) : LogBuffer :=
  let st1 := writeRaw st c
  if st.encodePercent && c == 37 then writeRaw st1 c else st1

/-- The marker-writing loop of `bufEnd`: successive
`buf[incWithRollover(p)] = clippedMarker[i]` stores (the rollover flag
only re-sets `clipped`, which is already `true` whenever this loop
runs). -/
def markerFold (cap : Nat) (b : Nat → Nat) (p : Nat) : List Nat → (Nat → Nat) × Nat
  | [] => (b, p)
  | c :: rest =>
    let r := incWithRollover cap p
    markerFold cap (store b r.1 c) r.2.1 rest

/-- `bufEnd()`: write a terminating `'\0'` at the append cursor (via
`incWithRollover` on a local copy `p`, whose rollover still sets the
member `clipped`), then, if clipped, write the truncation marker. -/
def bufEnd (st : LogBuffer) : LogBuffer :=
  let r := incWithRollover st.bufSize st.appendIndex
  let clipped1 := st.clipped || r.2.2
  let b1 := store st.buf r.1 0
  if clipped1 then
    { st with buf := (markerFold st.bufSize b1 r.2.1 markerBytes).1, clipped := clipped1 }
  else
    { st with buf := b1, clipped := clipped1 }

/-- `write(const char *msg)`: loop over the message bytes (a C string,
hence the bytes are nonzero and the loop counter `i` ends at the
length, which is the return value), then `bufEnd()`. -/
def write (st : LogBuffer) (msg : List Nat) : LogBuffer × Nat :=
  (bufEnd (msg.foldl writeCharStep st), msg.length)

/-- `write(const char *)`, state part only. -/
def writeStr (st : LogBuffer) (msg : List Nat) : LogBuffer :=
  (write st msg).1

/-- First variant's `write(uint8_t c)`: one `writeCharStep` followed by
`bufEnd()`; returns 1. -/
def writeByte (st : LogBuffer) (c : Nat) : LogBuffer × Nat :=
  (bufEnd (writeCharStep st c), 1)

/-- `clear()`. -/
def clear (st : LogBuffer) : LogBuffer :=
  { st with
    clipped := false
    appendIndex := 0
    buf := store (store st.buf st.bufSize 0) 0 0 }

/-- Reading a C string starting at cell `start`: the bytes up to (not
including) the first `0` cell.  `fuel` bounds the scan; every reachable
state has a `0` at cell `bufSize`, so `bufSize + 1` fuel always
suffices. -/
def readCStr (b : Nat → Nat) : Nat → Nat → List Nat
  | _, 0 => []
  | start, fuel + 1 =>
    if b start = 0 then [] else b start :: readCStr b (start + 1) fuel

/-- The two-part accessor `getLog(const byte part)`: part 0 is the C
string at `&buf[appendIndex + 1]` when clipped, else at `&buf[0]`;
part 1 is the C string at `&buf[0]` when clipped, else empty. -/
def getLog (st : LogBuffer) (part : Nat) : List Nat :=
  if part = 0 then
    readCStr st.buf (if st.clipped then st.appendIndex + 1 else 0) (st.bufSize + 1)
  else if part = 1 ∧ st.clipped then
    readCStr st.buf 0 (st.bufSize + 1)
  else []

/-- The logical log content seen by a client of the two-call accessor:
part 0 followed by part 1. -/
def reconstruct (st : LogBuffer) : List Nat :=
  getLog st 0 ++ getLog st 1

/-- Fold a list of `write(const char *)` calls over a fresh buffer. -/
def processCalls (capacity : Nat) (encodePercent : Bool) (mem : Nat → Nat)
    (calls : List (List Nat)) : LogBuffer :=
  calls.foldl writeStr (mk0 capacity encodePercent mem)

/-! ### Chunked reader of the second `LogBuffer` variant -/

/-- `RESPONSE_TRY_AGAIN` (as defined by AsyncWebServer). -/
def RESPONSE_TRY_AGAIN : Nat := 0xFFFF

/-- `size_t` modulus (the targets are 32-bit). -/
def SIZE_MOD : Nat := 2 ^ 32

/-- `size_t` subtraction: `x - y` modulo `2 ^ 32` (both operands below
`SIZE_MOD`). -/
def csub (x y : Nat) : Nat := (x + (SIZE_MOD - y)) % SIZE_MOD

/-- `copyLog(targetBuf, maxTargetLen, startIndex, sourceBuf, availableLogLen)`:
returns the number of bytes reported to the caller together with the bytes
copied into the target buffer.  `sourceBuf` is `&_buffer[srcOfs]`. -/
def copyLog (b : Nat → Nat) (maxTargetLen startIndex srcOfs availableLogLen : Nat) :
    Nat × List Nat :=
  if maxTargetLen = 0 ∧ 0 < availableLogLen then (RESPONSE_TRY_AGAIN, [])
  else
    let copyLen := if csub availableLogLen startIndex < maxTargetLen then
        csub availableLogLen startIndex else maxTargetLen
    (copyLen, (List.range copyLen).map fun i => b (srcOfs + startIndex + i))

/-- The chunked `getLog(uint8_t *targetBuf, size_t maxLen, size_t index,
size_t &bufferRollIndex)` of the second variant: returns the reported
byte count, the bytes filled into the target, and the updated
`bufferRollIndex`. -/
def getLogChunked (st : LogBuffer) (maxLen index rollIn : Nat) : Nat × List Nat × Nat :=
  let roll := if index = 0 ∨ st.clipped = false then st.appendIndex else rollIn
  if st.clipped then
    if index ≥ st.bufSize then (0, [], roll)
    else if index + 1 < csub st.bufSize st.appendIndex then
      let c := copyLog st.buf maxLen index (roll + 1) (csub (csub st.bufSize roll) 1)
      (c.1, c.2, roll)
    else
      let c := copyLog st.buf maxLen (csub index (csub (csub st.bufSize roll) 1)) 0 roll
      (c.1, c.2, roll)
  else
    if index < st.appendIndex then
      let c := copyLog st.buf maxLen index 0 roll
      (c.1, c.2, roll)
    else (0, [], roll)

/-- Driving the chunked reader to exhaustion: call with the given
`maxLen`, advance `index` by each call's return value, stop at return
value `0`.  `fuel` bounds the recursion; `bufSize + 1` suffices for any
reachable state. -/
def drainLog (st : LogBuffer) (maxLen : Nat) : Nat → Nat → Nat → List Nat
  | 0, _, _ => []
  | fuel + 1, index, roll =>
    let r := getLogChunked st maxLen index roll
    if r.1 = 0 then [] else r.2.1 ++ drainLog st maxLen fuel (index + r.1) r.2.2

end LogBuffer

/-! ## Hc12Tool (`src/hc12tool.h`, first variant) -/

namespace Hc12

/-- `RESPONSE_AT` = `"OK\r\n"`. -/
def RESPONSE_AT : List Nat := [79, 75, 13, 10]

/-- `HC12_BAUDRATE_NUMERIC`, the module's 8 supported baud rates in
ascending enum order. -/
def HC12_BAUDRATE_NUMERIC : List Nat :=
  [1200, 2400, 4800, 9600, 19200, 38400, 57600, 115200]

/-- `readExpectedResponse(expectedResponse, tolerateUnexpected, ...)`
run against a static list of pending input bytes: returns the result
and the bytes left unread in the channel.  `pos` is `responsePos`; the
expected byte is `expectedResponse[responsePos]`, i.e. `0` once `pos`
reaches the length (C string terminator).  A mismatching byte is
consumed; with `tolerateUnexpected` matching restarts at position 0 on
the next byte, otherwise the function returns `false` at once.  When
the input runs out the wait cycles expire and the result is whether the
expected response had been completed. -/
def readExpectedResponse (expected : List Nat) (tolerate : Bool) :
    List Nat → Nat → Bool × List Nat
  | [], pos => (decide (expected.getD pos 0 = 0), [])
  | x :: rest, pos =>
    if expected.getD pos 0 = 0 then (true, x :: rest)
    else if x = expected.getD pos 0 then readExpectedResponse expected tolerate rest (pos + 1)
    else if tolerate then readExpectedResponse expected tolerate rest 0
    else (false, rest)

/-- One "AT" probe: send `COMMAND_AT` at the channel's current baud rate
and match the reply (given by the mock transport `resp`) against
`RESPONSE_AT`. -/
def atProbe (resp : Nat → List Nat) (baud : Nat) (tolerate : Bool) : Bool :=
  (readExpectedResponse RESPONSE_AT tolerate (resp baud) 0).1

/-- The `Hc12Tool` fields relevant to the claims, together with the
state of the attached serial channel (its current baud rate and the
mock flags `portOk` = `operator bool`, `listening` = `isListening()`,
`availableForWrite`). -/
structure Tool where
  setPinNo : Nat
  fallbackSerialTo : Nat
  waitForAvailableWrite : Nat
  portOk : Bool
  listening : Bool
  availableForWrite : Bool
  baud : Nat
  deriving DecidableEq

/-- `changeBaudRate`: set the channel's baud rate (flushing and logging
have no modelled effect). -/
def changeBaudRate (tool : Tool) (b : Nat) : Tool :=
  { tool with baud := b }

/-- `sendValidatedCommand(COMMAND_AT, RESPONSE_AT, tolerate)`: the
`availableForWrite` wait guard (only active when tolerating and
`_waitForAvailableWrite` is nonzero) may fail without sending; otherwise
the AT probe is sent at the current baud rate.  Returns the result and
the list of issued probes as (baud, tolerate) pairs. -/
def sendValidatedAt (tool : Tool) (resp : Nat → List Nat) (tolerate : Bool) :
    Bool × List (Nat × Bool) :=
  if tolerate ∧ tool.waitForAvailableWrite ≠ 0 ∧ tool.availableForWrite = false then
    (false, [])
  else (atProbe resp tool.baud tolerate, [(tool.baud, tolerate)])

/-- The final scan of `enterCommandMode`: for each supported baud rate in
ascending order, set the rate and probe without tolerating unexpected
bytes; stop at the first success. -/
def probeLoop (resp : Nat → List Nat) (tool : Tool) :
    List Nat → Bool × Tool × List (Nat × Bool)
  | [] => (false, tool, [])
  | r :: rest =>
    let t1 := changeBaudRate tool r
    if atProbe resp r false then (true, t1, [(r, false)])
    else
      let k := probeLoop resp t1 rest
      (k.1, k.2.1, (r, false) :: k.2.2)

/-- `enterCommandMode(baudRate)`: returns the result, the final tool and
channel state, and the trace of issued AT probes. -/
def enterCommandMode (tool : Tool) (resp : Nat → List Nat) (baudRate : Nat) :
    Bool × Tool × List (Nat × Bool) :=
  if tool.setPinNo = 0 ∨ tool.portOk = false then (false, tool, [])
  else
    let a := if tool.listening then sendValidatedAt tool resp true else (false, [])
    if a.1 then (true, tool, a.2)
    else
      let t1 := changeBaudRate tool (HC12_BAUDRATE_NUMERIC.getD baudRate 0)
      let b := sendValidatedAt t1 resp true
      if b.1 then (true, t1, a.2 ++ b.2)
      else
        let t2 := changeBaudRate t1 9600
        let c := sendValidatedAt t2 resp true
        if c.1 then (true, t2, a.2 ++ b.2 ++ c.2)
        else
          let d := probeLoop resp t2 HC12_BAUDRATE_NUMERIC
          if d.1 then (true, d.2.1, a.2 ++ b.2 ++ c.2 ++ d.2.2)
          else
            let tf := if 0 < tool.fallbackSerialTo then
                changeBaudRate d.2.1 tool.fallbackSerialTo else d.2.1
            (false, tf, a.2 ++ b.2 ++ c.2 ++ d.2.2)

/-- The full probe schedule of `enterCommandMode` (assuming no probe
succeeds and every probe is issued): (a) pre-set rate, (b) preferred
rate, (c) factory default 9600, all tolerant; then (d) the 8 supported
rates in ascending order, exact matching. -/
def probeSchedule (tool : Tool) (baudRate : Nat) : List (Nat × Bool) :=
  (tool.baud, true) :: (HC12_BAUDRATE_NUMERIC.getD baudRate 0, true) :: (9600, true) ::
    HC12_BAUDRATE_NUMERIC.map fun r => (r, false)

/-- Outcome of one scheduled probe. -/
def probeOk (resp : Nat → List Nat) (p : Nat × Bool) : Bool :=
  atProbe resp p.1 p.2

/-! ### configure() and the parameter setters -/

/-- The short-circuit conjunction
`readExpectedResponse(expectedQueryResponse, false, false) &&
readExpectedResponse(expectedQueryValue, false, true)` guarding the
query round of `configure`: whether the module reports the desired
value as already set. -/
def queryMatches (eqResp eqValue : List Nat) (queryIn : List Nat) : Bool :=
  let r1 := readExpectedResponse eqResp false queryIn 0
  if r1.1 then (readExpectedResponse eqValue false r1.2 0).1 else false

/-- `configure(queryCommand, expectedQueryResponse, expectedQueryValue,
setCommand, commandValue, expectedSetResponse, ...)` run against a mock
channel: `queryIn` is the module's reply to the query command, `setIn`
the reply that arrives after the set command and its value have been
sent.  Returns the success flag and the list of commands written to the
channel.  (`ignoreEndOfLine` and `dumpPendingBytes` only consume
incoming bytes; activity logging writes nothing to the channel.) -/
def configure (queryCommand eqResp eqValue setCommand cmdValue eSetResp : List Nat)
    (queryIn setIn : List Nat) : Bool × List (List Nat) :=
  if queryMatches eqResp eqValue queryIn then (true, [queryCommand])
  else
    let r3 := readExpectedResponse eSetResp false setIn 0
    let ok := if r3.1 then (readExpectedResponse cmdValue false r3.2 0).1 else false
    (ok, [queryCommand, setCommand, cmdValue])

/-- `snprintf(str, 4, "%03u", n)` for `n ≤ 999`: three decimal digits
with leading zeros. -/
def pad3 (n : Nat) : List Nat :=
  [48 + n / 100, 48 + n / 10 % 10, 48 + n % 10]

/-- `snprintf(str2, 8, "%0+3ddBm", (power - 1) * 3 - 1)` for
`1 ≤ power ≤ 8`: signed, zero-padded to width 3, with `"dBm"`
appended. -/
def dbmString (power : Nat) : List Nat :=
  (if 3 * power < 4 then [45, 48, 48 + (4 - 3 * power)]
   else [43, 48 + (3 * power - 4) / 10, 48 + (3 * power - 4) % 10]) ++ [100, 66, 109]

/-- `configureChannel(channel)`: validate the range `1..127`, then drive
`configure("AT+RC", "OK+RC", str, "AT+C", str, "OK+C", ...)` with the
zero-padded channel number; out of range, log `"invalid channel"` and do
nothing.  Returns the commands written and the activity log of the
rejection branch. -/
def configureChannel (channel : Nat) (queryIn setIn : List Nat) :
    List (List Nat) × List String :=
  if 0 < channel ∧ channel ≤ 127 then
    ((configure [65, 84, 43, 82, 67] [79, 75, 43, 82, 67] (pad3 channel)
        [65, 84, 43, 67] (pad3 channel) [79, 75, 43, 67] queryIn setIn).2, [])
  else ([], ["invalid channel"])

/-- `configureTransmissionPower(power)`: validate `DBMminus1 ≤ power ≤
DBM20` (1..8), then drive `configure("AT+RP", "OK+RP:", str2, "AT+P",
str, "OK+P", ...)`; out of range, log `"invalid power"` and do
nothing. -/
def configureTransmissionPower (power : Nat) (queryIn setIn : List Nat) :
    List (List Nat) × List String :=
  if 1 ≤ power ∧ power ≤ 8 then
    ((configure [65, 84, 43, 82, 80] [79, 75, 43, 82, 80, 58] (dbmString power)
        [65, 84, 43, 80] [48 + power] [79, 75, 43, 80] queryIn setIn).2, [])
  else ([], ["invalid power"])

/-- `configureTransmissionMode(mode)`: the digit string is built first,
then the range `FU1 ≤ mode ≤ FU4` (1..4) is validated before driving
`configure("AT+RF", "OK+FU", str, "AT+FU", str, "OK+FU", ...)`; out of
range, log `"invalid mode"` and do nothing. -/
def configureTransmissionMode (mode : Nat) (queryIn setIn : List Nat) :
    List (List Nat) × List String :=
  let str := [48 + mode]
  if 1 ≤ mode ∧ mode ≤ 4 then
    ((configure [65, 84, 43, 82, 70] [79, 75, 43, 70, 85] str
        [65, 84, 43, 70, 85] str [79, 75, 43, 70, 85] queryIn setIn).2, [])
  else ([], ["invalid mode"])

end Hc12

/-! ## Helper lemmas: memory stores and modular index arithmetic -/

@[simp] theorem store_same (b : Nat → Nat) (i v : Nat) : store b i v i = v := by
  simp [store]

theorem store_other (b : Nat → Nat) (i v j : Nat) (h : j ≠ i) : store b i v j = b j := by
  simp [store, h]

theorem mod_succ_eq (cap n : Nat) (h : 0 < cap) :
    (n + 1) % cap = if cap ≤ n % cap + 1 then 0 else n % cap + 1 := by
  have h1 : n % cap < cap := Nat.mod_lt _ h
  have h3 : (n + 1) % cap = (n % cap + 1) % cap := by
    rw [Nat.mod_add_mod]
  by_cases hc : cap ≤ n % cap + 1
  · have h2 : n % cap + 1 = cap := by omega
    rw [if_pos hc, h3, h2, Nat.mod_self]
  · have h2 : n % cap + 1 < cap := by omega
    rw [if_neg hc, h3, Nat.mod_eq_of_lt h2]

theorem mod_inj_le {cap v w : Nat} (hlt : v ≤ w) (hd : w - v < cap)
    (h : v % cap = w % cap) : v = w := by
  have hdvd : cap ∣ w - v := (Nat.modEq_iff_dvd' hlt).1 h
  rcases hdvd with ⟨k, hk⟩
  rcases k with _ | k
  · omega
  · have h1 : cap * 1 ≤ cap * (k + 1) := Nat.mul_le_mul_left cap (by omega)
    omega

/-- Two numbers in a window of length `cap` with equal residues are
equal. -/
theorem window_mod_inj {c n v w : Nat} (hv1 : n ≤ v) (hv2 : v < n + c)
    (hw1 : n ≤ w) (hw2 : w < n + c) (h : v % c = w % c) : v = w := by
  rcases Nat.le_total v w with hle | hle
  · exact mod_inj_le hle (by omega) h
  · exact (mod_inj_le hle (by omega) h.symm).symm

namespace LogBuffer

theorem inc_fst (cap idx : Nat) : (incWithRollover cap idx).1 = idx := by
  unfold incWithRollover; split <;> rfl

theorem inc_snd (cap idx : Nat) (h : idx < cap) :
    (incWithRollover cap idx).2.1 = (idx + 1) % cap := by
  unfold incWithRollover
  split
  · have h2 : idx + 1 = cap := by omega
    simp [h2]
  · have h2 : idx + 1 < cap := by omega
    simp [Nat.mod_eq_of_lt h2]

/-! ## Invariants for reachable `LogBuffer` states

`InvFresh cap w st`: the buffer has never clipped and holds exactly the
written history `w` at cells `0..w.length - 1` (mid-call form: the
terminating `'\0'` of the last `bufEnd` may have been overwritten).

`InvClipped cap n0 w st`: the buffer has clipped; `w` is the full
written history, `n0` the total at which `bufEnd` last ran.  Cells are
described through virtual coordinates `v ∈ [w.length, w.length + cap)`:
the cell `v % cap` holds the not-yet-overwritten remains of the last
`bufEnd` overlay (`'\0'` at `n0` when nothing was written since, marker
bytes at `(n0, n0+6]`) or else the data byte `w[v - cap]`. -/

def InvFresh (cap : Nat) (w : List Nat) (st : LogBuffer) : Prop :=
  st.bufSize = cap ∧ st.clipped = false ∧ st.appendIndex = w.length ∧
  w.length < cap ∧ st.buf cap = 0 ∧
  ∀ i, i < w.length → st.buf i = w.getD i 0

def InvClipped (cap n0 : Nat) (w : List Nat) (st : LogBuffer) : Prop :=
  st.bufSize = cap ∧ st.clipped = true ∧ st.appendIndex = w.length % cap ∧
  n0 ≤ w.length ∧ st.buf cap = 0 ∧
  (w.length = n0 → st.buf (n0 % cap) = 0) ∧
  (∀ v, w.length ≤ v → n0 < v → v ≤ n0 + 6 →
    st.buf (v % cap) = markerBytes.getD (v - n0 - 1) 0) ∧
  (∀ v, w.length ≤ v → v < w.length + cap → n0 + 6 < v → cap ≤ v →
    st.buf (v % cap) = w.getD (v - cap) 0)

/-- Shape of `writeRaw` when the cursor does not roll over. -/
theorem writeRaw_eq_of_lt {st : LogBuffer} {b : Nat} (h : st.appendIndex + 1 < st.bufSize) :
    writeRaw st b =
      { st with buf := store st.buf st.appendIndex b, appendIndex := st.appendIndex + 1 } := by
  unfold writeRaw incWithRollover
  rw [if_neg (by omega)]
  simp

/-- Shape of `writeRaw` when the cursor rolls over. -/
theorem writeRaw_eq_of_ge {st : LogBuffer} {b : Nat} (h : st.bufSize ≤ st.appendIndex + 1) :
    writeRaw st b =
      { st with buf := store st.buf st.appendIndex b, appendIndex := 0, clipped := true } := by
  unfold writeRaw incWithRollover
  rw [if_pos (by omega)]
  simp

theorem inc_eq_of_lt {cap idx : Nat} (h : idx + 1 < cap) :
    incWithRollover cap idx = (idx, idx + 1, false) := by
  unfold incWithRollover
  rw [if_neg (show ¬ idx + 1 ≥ cap by omega)]

theorem inc_eq_of_ge {cap idx : Nat} (h : cap ≤ idx + 1) :
    incWithRollover cap idx = (idx, 0, true) := by
  unfold incWithRollover
  rw [if_pos (show idx + 1 ≥ cap by omega)]

/-- Shape of `bufEnd` on an unclipped buffer whose terminator write does
not roll over. -/
theorem bufEnd_eq_fresh {st : LogBuffer} (h1 : st.appendIndex + 1 < st.bufSize)
    (h2 : st.clipped = false) :
    bufEnd st = { st with buf := store st.buf st.appendIndex 0 } := by
  unfold bufEnd
  rw [inc_eq_of_lt h1]
  simp [h2]

/-- Shape of `bufEnd` when the terminator write rolls over (this alone
sets `clipped`). -/
theorem bufEnd_eq_roll {st : LogBuffer} (h1 : st.bufSize ≤ st.appendIndex + 1) :
    bufEnd st =
      { st with
        buf := (markerFold st.bufSize (store st.buf st.appendIndex 0) 0 markerBytes).1
        clipped := true } := by
  unfold bufEnd
  rw [inc_eq_of_ge h1]
  simp

/-- Shape of `bufEnd` on an already clipped buffer, terminator not at
the last cell. -/
theorem bufEnd_eq_clipped {st : LogBuffer} (h1 : st.appendIndex + 1 < st.bufSize)
    (h2 : st.clipped = true) :
    bufEnd st =
      { st with
        buf := (markerFold st.bufSize (store st.buf st.appendIndex 0)
          (st.appendIndex + 1) markerBytes).1
        clipped := true } := by
  unfold bufEnd
  rw [inc_eq_of_lt h1]
  simp [h2]

/-- A raw byte write in the unclipped regime, staying unclipped. -/
theorem writeRaw_fresh {cap : Nat} {w : List Nat} {st : LogBuffer}
    (hinv : InvFresh cap w st) (hlen : w.length + 1 < cap) (b : Nat) :
    InvFresh cap (w ++ [b]) (writeRaw st b) := by
  obtain ⟨hsz, hcl, hai, hlt, hcap0, hdata⟩ := hinv
  rw [writeRaw_eq_of_lt (by omega)]
  refine ⟨hsz, hcl, by simp [hai], by simp; omega, ?_, ?_⟩
  · simp only
    rw [hai, store_other _ _ _ _ (by omega)]
    exact hcap0
  · intro i hi
    simp only [List.length_append, List.length_singleton] at hi
    simp only [hai]
    by_cases hiw : i = w.length
    · subst hiw
      rw [store_same, List.getD_append_right w [b] 0 _ (le_refl _)]
      simp
    · rw [store_other _ _ _ _ hiw, hdata i (by omega),
        List.getD_append w [b] 0 i (by omega)]

/-- A raw byte write that rolls the cursor over for the first time. -/
theorem writeRaw_clipEntry {cap : Nat} (hcap : 8 ≤ cap) {w : List Nat} {st : LogBuffer}
    (hinv : InvFresh cap w st) (hlen : w.length + 1 = cap) (b : Nat) :
    InvClipped cap 0 (w ++ [b]) (writeRaw st b) := by
  obtain ⟨hsz, hcl, hai, hlt, hcap0, hdata⟩ := hinv
  rw [writeRaw_eq_of_ge (by omega)]
  have hlen2 : (w ++ [b]).length = cap := by simp; omega
  refine ⟨hsz, rfl, ?_, by omega, ?_, ?_, ?_, ?_⟩
  · simp only [hlen2, Nat.mod_self]
  · simp only
    rw [hai, store_other _ _ _ _ (by omega)]
    exact hcap0
  · intro h0
    omega
  · intro v hv1 hv2 hv3
    rw [hlen2] at hv1
    omega
  · intro v hv1 hv2 hv3 hv4
    rw [hlen2] at hv1 hv2
    have hvm : v % cap = v - cap := by
      rw [Nat.mod_eq_sub_mod hv4, Nat.mod_eq_of_lt (by omega)]
    simp only [hai, hvm]
    by_cases hvw : v - cap = w.length
    · rw [hvw, store_same, List.getD_append_right w [b] 0 _ (le_refl _)]
      simp
    · rw [store_other _ _ _ _ hvw, hdata _ (by omega),
        List.getD_append w [b] 0 _ (by omega)]

/-- A raw byte write in the clipped regime. -/
theorem writeRaw_clipped {cap n0 : Nat} (hcap : 8 ≤ cap) {w : List Nat} {st : LogBuffer}
    (hinv : InvClipped cap n0 w st) (b : Nat) :
    InvClipped cap n0 (w ++ [b]) (writeRaw st b) := by
  obtain ⟨hsz, hcl, hai, hn0, hcap0, _, hmark, hdata⟩ := hinv
  have hcappos : 0 < cap := by omega
  have ha : w.length % cap < cap := Nat.mod_lt _ hcappos
  have hlen2 : (w ++ [b]).length = w.length + 1 := by simp
  by_cases hroll : st.appendIndex + 1 < st.bufSize
  case neg =>
    -- cursor at the last cell: rolls to 0
    have hav : w.length % cap = cap - 1 := by
      rw [hsz] at hroll; omega
    rw [writeRaw_eq_of_ge (by omega)]
    have hmod : (w.length + 1) % cap = 0 := by
      rw [mod_succ_eq cap _ hcappos, if_pos (by omega)]
    refine ⟨hsz, rfl, by simp [hlen2, hmod], by omega, ?_, ?_, ?_, ?_⟩
    · simp only
      rw [store_other _ _ _ _ (by omega)]
      exact hcap0
    · intro h0
      omega
    · intro v hv1 hv2 hv3
      rw [hlen2] at hv1
      simp only [hai]
      rw [store_other, hmark v (by omega) hv2 hv3]
      intro hm
      have hv : v = w.length :=
        window_mod_inj (c := cap) (n := w.length) (by omega) (by omega)
          (le_refl _) (by omega) hm
      omega
    · intro v hv1 hv2 hv3 hv4
      rw [hlen2] at hv1 hv2
      simp only [hai]
      by_cases hveq : v = w.length + cap
      · subst hveq
        rw [Nat.add_mod_right, store_same,
          List.getD_append_right w [b] 0 _ (by omega)]
        simp
      · rw [store_other, hdata v (by omega) (by omega) hv3 hv4,
          List.getD_append w [b] 0 _ (by omega)]
        intro hm
        have hv : v = w.length :=
          window_mod_inj (c := cap) (n := w.length) (by omega) (by omega)
            (le_refl _) (by omega) hm
        omega
  case pos =>
    rw [writeRaw_eq_of_lt hroll]
    have hmod : (w.length + 1) % cap = w.length % cap + 1 := by
      rw [mod_succ_eq cap _ hcappos, if_neg (by rw [hsz] at hroll; omega)]
    refine ⟨hsz, hcl, by simp [hlen2, hmod, hai], by omega, ?_, ?_, ?_, ?_⟩
    · simp only
      rw [store_other _ _ _ _ (by omega)]
      exact hcap0
    · intro h0
      omega
    · intro v hv1 hv2 hv3
      rw [hlen2] at hv1
      simp only [hai]
      rw [store_other, hmark v (by omega) hv2 hv3]
      intro hm
      have hv : v = w.length :=
        window_mod_inj (c := cap) (n := w.length) (by omega) (by omega)
          (le_refl _) (by omega) hm
      omega
    · intro v hv1 hv2 hv3 hv4
      rw [hlen2] at hv1 hv2
      simp only [hai]
      by_cases hveq : v = w.length + cap
      · subst hveq
        rw [Nat.add_mod_right, store_same,
          List.getD_append_right w [b] 0 _ (by omega)]
        simp
      · rw [store_other, hdata v (by omega) (by omega) hv3 hv4,
          List.getD_append w [b] 0 _ (by omega)]
        intro hm
        have hv : v = w.length :=
          window_mod_inj (c := cap) (n := w.length) (by omega) (by omega)
            (le_refl _) (by omega) hm
        omega

theorem markerFold_cons {cap : Nat} (b : Nat → Nat) {p : Nat} (h : p < cap)
    (c : Nat) (rest : List Nat) :
    markerFold cap b p (c :: rest) = markerFold cap (store b p c) ((p + 1) % cap) rest := by
  by_cases h2 : p + 1 < cap
  · simp only [markerFold, inc_eq_of_lt h2, Nat.mod_eq_of_lt h2]
  · have h3 : p + 1 = cap := by omega
    simp only [markerFold, inc_eq_of_ge (show cap ≤ p + 1 by omega), h3, Nat.mod_self]

/-- Cells not touched by the marker loop keep their value. -/
theorem markerFold_apply_other {cap : Nat} (hcap : 0 < cap) :
    ∀ (chars : List Nat) (b : Nat → Nat) (p : Nat), p < cap →
      ∀ j, (∀ t, t < chars.length → j ≠ (p + t) % cap) →
      (markerFold cap b p chars).1 j = b j := by
  intro chars
  induction chars with
  | nil => intro b p hp j hj; rfl
  | cons c rest ih =>
    intro b p hp j hj
    rw [markerFold_cons b hp]
    rw [ih (store b p c) ((p + 1) % cap) (Nat.mod_lt _ hcap) j ?_]
    · refine store_other _ _ _ _ ?_
      have := hj 0 (by simp)
      simpa [Nat.mod_eq_of_lt hp] using this
    · intro t ht
      have h1 := hj (t + 1) (by simp only [List.length_cons]; omega)
      intro hcon
      apply h1
      rw [hcon, Nat.mod_add_mod]
      congr 1
      omega

/-- Cells written by the marker loop hold the marker characters. -/
theorem markerFold_apply {cap : Nat} (hcap : 0 < cap) :
    ∀ (chars : List Nat), chars.length ≤ cap → ∀ (b : Nat → Nat) (p : Nat), p < cap →
      ∀ t, t < chars.length →
      (markerFold cap b p chars).1 ((p + t) % cap) = chars.getD t 0 := by
  intro chars
  induction chars with
  | nil => intro _ b p hp t ht; simp at ht
  | cons c rest ih =>
    intro hlen b p hp t ht
    rw [markerFold_cons b hp]
    rcases t with _ | t
    · have hps : (p + 0) % cap = p := by simp [Nat.mod_eq_of_lt hp]
      rw [hps]
      rw [markerFold_apply_other hcap rest (store b p c) ((p + 1) % cap)
        (Nat.mod_lt _ hcap) p ?_]
      · simp
      · intro s hs hcon
        have hsp : ((p + 1) % cap + s) % cap = (p + 1 + s) % cap := by
          rw [Nat.mod_add_mod]
        rw [hsp] at hcon
        simp only [List.length_cons] at hlen
        have : p = p + 1 + s :=
          window_mod_inj (c := cap) (n := p) (le_refl _) (by omega)
            (by omega) (by omega) (by rw [Nat.mod_eq_of_lt hp]; exact hcon)
        omega
    · have hps : (p + (t + 1)) % cap = ((p + 1) % cap + t) % cap := by
        rw [Nat.mod_add_mod]
        congr 1
        omega
      rw [hps]
      simp only [List.length_cons] at hlen ht
      rw [ih (by omega) (store b p c) ((p + 1) % cap) (Nat.mod_lt _ hcap) t (by omega)]
      simp

/-- Post-call form of the unclipped invariant: `bufEnd` has written the
terminating `'\0'`. -/
def InvFreshPost (cap : Nat) (w : List Nat) (st : LogBuffer) : Prop :=
  InvFresh cap w st ∧ w.length + 1 < cap ∧ st.buf w.length = 0

theorem bufEnd_fresh_inv {cap : Nat} {w : List Nat} {st : LogBuffer}
    (hinv : InvFresh cap w st) (hlen : w.length + 1 < cap) :
    InvFreshPost cap w (bufEnd st) := by
  obtain ⟨hsz, hcl, hai, hlt, hcap0, hdata⟩ := hinv
  rw [bufEnd_eq_fresh (by omega) hcl]
  refine ⟨⟨hsz, hcl, hai, hlt, ?_, ?_⟩, hlen, ?_⟩
  · simp only [hai]
    rw [store_other _ _ _ _ (by omega)]
    exact hcap0
  · intro i hi
    simp only [hai]
    rw [store_other _ _ _ _ (by omega)]
    exact hdata i hi
  · simp only [hai]
    rw [store_same]

theorem bufEnd_freshClip_inv {cap : Nat} (hcap : 8 ≤ cap) {w : List Nat} {st : LogBuffer}
    (hinv : InvFresh cap w st) (hlen : w.length + 1 = cap) :
    InvClipped cap w.length w (bufEnd st) := by
  obtain ⟨hsz, hcl, hai, hlt, hcap0, hdata⟩ := hinv
  have hcappos : 0 < cap := by omega
  rw [bufEnd_eq_roll (by omega)]
  have hmlen : markerBytes.length = 6 := by decide
  refine ⟨hsz, rfl, by simp [hai, Nat.mod_eq_of_lt hlt], le_refl _, ?_, ?_, ?_, ?_⟩
  · simp only [hsz, hai]
    rw [markerFold_apply_other hcappos markerBytes _ 0 (by omega) cap ?_,
      store_other _ _ _ _ (by omega)]
    · exact hcap0
    · intro t ht
      rw [hmlen] at ht
      have : (0 + t) % cap = t := by rw [Nat.zero_add, Nat.mod_eq_of_lt (by omega)]
      omega
  · intro _
    simp only [hsz, hai]
    rw [Nat.mod_eq_of_lt hlt]
    rw [markerFold_apply_other hcappos markerBytes _ 0 (by omega) w.length ?_,
      store_same]
    intro t ht
    rw [hmlen] at ht
    rw [Nat.zero_add, Nat.mod_eq_of_lt (by omega)]
    omega
  · intro v hv1 hv2 hv3
    simp only [hsz, hai]
    have hvcap : cap ≤ v := by omega
    have hvm : v % cap = v - cap := by
      rw [Nat.mod_eq_sub_mod hvcap, Nat.mod_eq_of_lt (by omega)]
    have hidx : v - cap < 6 := by omega
    have hpos : (0 + (v - cap)) % cap = v - cap := by
      rw [Nat.zero_add, Nat.mod_eq_of_lt (by omega)]
    rw [hvm, ← hpos,
      markerFold_apply hcappos markerBytes (by rw [hmlen]; omega) _ 0 (by omega)
        (v - cap) (by rw [hmlen]; omega)]
    congr 1
    omega
  · intro v hv1 hv2 hv3 hv4
    simp only [hsz, hai]
    have hvm : v % cap = v - cap := by
      rw [Nat.mod_eq_sub_mod hv4, Nat.mod_eq_of_lt (by omega)]
    rw [hvm]
    rw [markerFold_apply_other hcappos markerBytes _ 0 (by omega) (v - cap) ?_,
      store_other _ _ _ _ (by omega)]
    · exact hdata _ (by omega)
    · intro t ht
      rw [hmlen] at ht
      rw [Nat.zero_add, Nat.mod_eq_of_lt (by omega)]
      omega

/-- Combined shape of `bufEnd` on a clipped buffer: the marker loop
starts at `(appendIndex + 1) % bufSize`. -/
theorem bufEnd_eq_clipped_mod {st : LogBuffer} (h2 : st.clipped = true)
    (h3 : st.appendIndex < st.bufSize) :
    bufEnd st =
      { st with
        buf := (markerFold st.bufSize (store st.buf st.appendIndex 0)
          ((st.appendIndex + 1) % st.bufSize) markerBytes).1
        clipped := true } := by
  by_cases h : st.appendIndex + 1 < st.bufSize
  · rw [bufEnd_eq_clipped h h2, Nat.mod_eq_of_lt h]
  · have h4 : st.appendIndex + 1 = st.bufSize := by omega
    rw [bufEnd_eq_roll (by omega), h4, Nat.mod_self]

theorem bufEnd_clipped_inv {cap n0 : Nat} (hcap : 8 ≤ cap) {w : List Nat} {st : LogBuffer}
    (hinv : InvClipped cap n0 w st) :
    InvClipped cap w.length w (bufEnd st) := by
  obtain ⟨hsz, hcl, hai, hn0, hcap0, hnul, hmark, hdata⟩ := hinv
  have hcappos : 0 < cap := by omega
  have ha : w.length % cap < cap := Nat.mod_lt _ hcappos
  have hmlen : markerBytes.length = 6 := by decide
  rw [bufEnd_eq_clipped_mod hcl (by omega)]
  have hploc : (w.length % cap + 1) % cap = (w.length + 1) % cap :=
    Nat.mod_add_mod w.length cap 1
  have hppos : (w.length + 1) % cap < cap := Nat.mod_lt _ hcappos
  have hpt : ∀ t, ((w.length + 1) % cap + t) % cap = (w.length + 1 + t) % cap := by
    intro t
    rw [Nat.mod_add_mod]
  refine ⟨hsz, rfl, hai, le_refl _, ?_, ?_, ?_, ?_⟩
  · simp only [hsz, hai, hploc]
    rw [markerFold_apply_other hcappos markerBytes _ _ hppos cap ?_,
      store_other _ _ _ _ (by omega)]
    · exact hcap0
    · intro t ht
      have := Nat.mod_lt (w.length + 1 + t) hcappos
      rw [hpt t]
      omega
  · intro _
    simp only [hsz, hai, hploc]
    rw [markerFold_apply_other hcappos markerBytes _ _ hppos (w.length % cap) ?_,
      store_same]
    intro t ht
    rw [hmlen] at ht
    rw [hpt t]
    intro hcon
    have : w.length = w.length + 1 + t :=
      window_mod_inj (c := cap) (n := w.length) (le_refl _) (by omega)
        (by omega) (by omega) hcon
    omega
  · intro v hv1 hv2 hv3
    simp only [hsz, hai, hploc]
    have hvt : w.length + 1 + (v - w.length - 1) = v := by omega
    rw [show v % cap = ((w.length + 1) % cap + (v - w.length - 1)) % cap by
      rw [hpt, hvt]]
    rw [markerFold_apply hcappos markerBytes (by rw [hmlen]; omega) _ _ hppos
      (v - w.length - 1) (by rw [hmlen]; omega)]
  · intro v hv1 hv2 hv3 hv4
    simp only [hsz, hai, hploc]
    rw [markerFold_apply_other hcappos markerBytes _ _ hppos (v % cap) ?_,
      store_other _ _ _ _ ?_]
    · exact hdata v hv1 hv2 (by omega) hv4
    · intro hcon
      have : v = w.length :=
        window_mod_inj (c := cap) (n := w.length) hv1 hv2 (le_refl _)
          (by omega) hcon
      omega
    · intro t ht
      rw [hmlen] at ht
      rw [hpt t]
      intro hcon
      have : v = w.length + 1 + t :=
        window_mod_inj (c := cap) (n := w.length) hv1 hv2 (by omega)
          (by omega) hcon
      omega

theorem foldRaw_fresh {cap : Nat} :
    ∀ (m w : List Nat) (st : LogBuffer), InvFresh cap w st →
      w.length + m.length < cap →
      InvFresh cap (w ++ m) (m.foldl writeRaw st) := by
  intro m
  induction m with
  | nil => intro w st h _; simpa using h
  | cons c rest ih =>
    intro w st h hl
    simp only [List.length_cons] at hl
    have h1 := writeRaw_fresh h (by omega) c
    have h2 := ih (w ++ [c]) _ h1 (by simp; omega)
    simpa using h2

theorem foldRaw_clipped {cap n0 : Nat} (hcap : 8 ≤ cap) :
    ∀ (m w : List Nat) (st : LogBuffer), InvClipped cap n0 w st →
      InvClipped cap n0 (w ++ m) (m.foldl writeRaw st) := by
  intro m
  induction m with
  | nil => intro w st h; simpa using h
  | cons c rest ih =>
    intro w st h
    have h1 := writeRaw_clipped hcap h c
    have h2 := ih (w ++ [c]) _ h1
    simpa using h2

theorem foldRaw_cross {cap : Nat} (hcap : 8 ≤ cap) :
    ∀ (m w : List Nat) (st : LogBuffer), InvFresh cap w st →
      cap ≤ w.length + m.length →
      InvClipped cap 0 (w ++ m) (m.foldl writeRaw st) := by
  intro m
  induction m with
  | nil =>
    intro w st h hl
    obtain ⟨_, _, _, hlt, _, _⟩ := h
    simp at hl
    omega
  | cons c rest ih =>
    intro w st h hl
    simp only [List.length_cons] at hl
    by_cases hx : w.length + 1 < cap
    · have h1 := writeRaw_fresh h hx c
      have h2 := ih (w ++ [c]) _ h1 (by simp; omega)
      simpa using h2
    · have hx2 : w.length + 1 = cap := by
        obtain ⟨_, _, _, hlt, _, _⟩ := h
        omega
      have h1 := writeRaw_clipEntry hcap h hx2 c
      have h2 := foldRaw_clipped hcap rest (w ++ [c]) _ h1
      simpa using h2

/-! ### The per-`%`-doubling expansion and preservation of `encodePercent` -/

/-- The stored expansion of a message: with `encodePercent`, each `'%'`
(37) byte is stored twice. -/
def expandEnc (enc : Bool) : List Nat → List Nat
  | [] => []
  | c :: rest =>
    if enc && c == 37 then c :: c :: expandEnc enc rest else c :: expandEnc enc rest

theorem writeRaw_encodePercent (st : LogBuffer) (b : Nat) :
    (writeRaw st b).encodePercent = st.encodePercent := rfl

theorem writeCharStep_encodePercent (st : LogBuffer) (c : Nat) :
    (writeCharStep st c).encodePercent = st.encodePercent := by
  unfold writeCharStep
  split <;> rfl

theorem bufEnd_encodePercent (st : LogBuffer) :
    (bufEnd st).encodePercent = st.encodePercent := by
  cases hb : st.clipped || (incWithRollover st.bufSize st.appendIndex).2.2 <;>
    simp [bufEnd, hb]

/-- The `write` loop is the raw fold over the expanded message. -/
theorem foldl_writeCharStep_eq (m : List Nat) :
    ∀ st : LogBuffer, m.foldl writeCharStep st =
      (expandEnc st.encodePercent m).foldl writeRaw st := by
  induction m with
  | nil => intro st; rfl
  | cons c rest ih =>
    intro st
    simp only [List.foldl_cons, expandEnc]
    by_cases h : st.encodePercent && c == 37
    · rw [if_pos h]
      have hstep : writeCharStep st c = writeRaw (writeRaw st c) c := by
        unfold writeCharStep
        rw [if_pos h]
      rw [ih (writeCharStep st c), writeCharStep_encodePercent, hstep]
      simp only [List.foldl_cons]
    · rw [if_neg h]
      have hstep : writeCharStep st c = writeRaw st c := by
        unfold writeCharStep
        rw [if_neg h]
      rw [ih (writeCharStep st c), writeCharStep_encodePercent, hstep]
      simp only [List.foldl_cons]

theorem writeStr_eq_raw (st : LogBuffer) (m : List Nat) :
    writeStr st m = bufEnd ((expandEnc st.encodePercent m).foldl writeRaw st) := by
  unfold writeStr write
  rw [foldl_writeCharStep_eq]

theorem writeStr_encodePercent (st : LogBuffer) (m : List Nat) :
    (writeStr st m).encodePercent = st.encodePercent := by
  rw [writeStr_eq_raw, bufEnd_encodePercent]
  generalize expandEnc st.encodePercent m = e
  induction e generalizing st with
  | nil => rfl
  | cons c rest ih => simpa [writeRaw_encodePercent] using ih (writeRaw st c)

/-! ### The reachability invariant for complete `write` call sequences -/

def PostInv (cap : Nat) (w : List Nat) (st : LogBuffer) : Prop :=
  InvFreshPost cap w st ∨ (cap ≤ w.length + 1 ∧ InvClipped cap w.length w st)

theorem writeStr_step {cap : Nat} (hcap : 8 ≤ cap) {w : List Nat} {st : LogBuffer}
    (m : List Nat) (h : PostInv cap w st) :
    PostInv cap (w ++ expandEnc st.encodePercent m) (writeStr st m) := by
  rw [writeStr_eq_raw]
  set e := expandEnc st.encodePercent m with he
  rcases h with ⟨hfresh, hlen, _⟩ | ⟨hge, hclip⟩
  · rcases Nat.lt_or_ge (w.length + e.length + 1) cap with hc | hc
    · left
      have h1 := foldRaw_fresh e w st hfresh (by omega)
      have h2 := bufEnd_fresh_inv h1 (by simp; omega)
      exact h2
    · rcases Nat.lt_or_ge (w.length + e.length) cap with hc2 | hc2
      · right
        have h1 := foldRaw_fresh e w st hfresh hc2
        have hl : (w ++ e).length + 1 = cap := by simp; omega
        refine ⟨by simp; omega, ?_⟩
        have h2 := bufEnd_freshClip_inv hcap h1 hl
        simpa [hl] using h2
      · right
        have h1 := foldRaw_cross hcap e w st hfresh hc2
        have h2 := bufEnd_clipped_inv hcap h1
        exact ⟨by simp; omega, h2⟩
  · right
    have h1 := foldRaw_clipped hcap e w st hclip
    have h2 := bufEnd_clipped_inv hcap h1
    exact ⟨by simp; omega, h2⟩

theorem mk0_inv {cap : Nat} (hcap : 8 ≤ cap) (enc : Bool) (mem : Nat → Nat) :
    PostInv cap [] (mk0 cap enc mem) := by
  left
  refine ⟨⟨rfl, rfl, rfl, by simp only [List.length_nil]; omega, ?_, ?_⟩,
    by simp only [List.length_nil]; omega, ?_⟩
  · show store (store mem cap 0) 0 0 cap = 0
    rw [store_other _ _ _ _ (by omega), store_same]
  · intro i hi
    simp at hi
  · show store (store mem cap 0) 0 0 ([] : List Nat).length = 0
    simp only [List.length_nil]
    rw [store_same]

theorem clear_inv {cap : Nat} (hcap : 8 ≤ cap) (st : LogBuffer) (hsz : st.bufSize = cap) :
    PostInv cap [] (clear st) := by
  left
  refine ⟨⟨hsz, rfl, rfl, by simp only [List.length_nil]; omega, ?_, ?_⟩,
    by simp only [List.length_nil]; omega, ?_⟩
  · show store (store st.buf st.bufSize 0) 0 0 cap = 0
    rw [store_other _ _ _ _ (by omega), hsz, store_same]
  · intro i hi
    simp at hi
  · show store (store st.buf st.bufSize 0) 0 0 ([] : List Nat).length = 0
    simp only [List.length_nil]
    rw [store_same]

theorem foldl_writeStr_inv {cap : Nat} (hcap : 8 ≤ cap) :
    ∀ (calls : List (List Nat)) (w : List Nat) (st : LogBuffer), PostInv cap w st →
      PostInv cap (w ++ (calls.map (expandEnc st.encodePercent)).flatten)
        (calls.foldl writeStr st) := by
  intro calls
  induction calls with
  | nil => intro w st h; simpa using h
  | cons m rest ih =>
    intro w st h
    have h1 := writeStr_step hcap m h
    have h2 := ih (w ++ expandEnc st.encodePercent m) (writeStr st m) h1
    rw [writeStr_encodePercent] at h2
    simpa using h2

theorem processCalls_inv {cap : Nat} (hcap : 8 ≤ cap) (enc : Bool) (mem : Nat → Nat)
    (calls : List (List Nat)) :
    PostInv cap ((calls.map (expandEnc enc)).flatten)
      (processCalls cap enc mem calls) := by
  have h := foldl_writeStr_inv hcap calls [] _ (mk0_inv hcap enc mem)
  simpa [processCalls] using h

/-! ### What the two-part accessor reads -/

theorem readCStr_spec (b : Nat → Nat) :
    ∀ (k start fuel : Nat), (∀ t, t < k → b (start + t) ≠ 0) → b (start + k) = 0 →
      k < fuel → readCStr b start fuel = (List.range k).map (fun t => b (start + t)) := by
  intro k
  induction k with
  | zero =>
    intro start fuel _ hz hf
    rcases fuel with _ | f
    · omega
    · unfold readCStr
      rw [if_pos (by simpa using hz)]
      simp
  | succ k ih =>
    intro start fuel hnz hz hf
    rcases fuel with _ | f
    · omega
    · unfold readCStr
      rw [if_neg (by simpa using hnz 0 (by omega))]
      rw [ih (start + 1) f ?_ ?_ (by omega)]
      · rw [List.range_succ_eq_map]
        simp only [List.map_cons, List.map_map, Nat.add_zero]
        congr 1
        apply List.map_congr_left
        intro t _
        simp only [Function.comp_apply]
        congr 1
        omega
      · intro t ht
        have := hnz (t + 1) (by omega)
        simpa [show start + (t + 1) = start + 1 + t by omega] using this
      · simpa [show start + (k + 1) = start + 1 + k by omega] using hz

theorem map_getD_range (w : List Nat) :
    (List.range w.length).map (fun t => w.getD t 0) = w := by
  apply List.ext_getElem
  · simp
  · intro i h1 h2
    simp only [List.getElem_map, List.getElem_range]
    exact List.getD_eq_getElem w 0 h2

theorem getD_ne_zero {w : List Nat} (hnz : ∀ x ∈ w, x ≠ 0) {i : Nat}
    (h : i < w.length) : w.getD i 0 ≠ 0 := by
  rw [List.getD_eq_getElem w 0 h]
  exact hnz _ (List.getElem_mem h)

theorem markerBytes_getD_ne_zero : ∀ j, j < 6 → markerBytes.getD j 0 ≠ 0 := by decide

/-- Unclipped post-call state: the accessor returns exactly the written
history. -/
theorem reconstruct_fresh {cap : Nat} {w : List Nat} {st : LogBuffer}
    (hinv : InvFreshPost cap w st) (hnz : ∀ x ∈ w, x ≠ 0) :
    reconstruct st = w := by
  obtain ⟨⟨hsz, hcl, hai, hlt, hcap0, hdata⟩, hlen, hnul⟩ := hinv
  have h0 : getLog st 0 = readCStr st.buf 0 (cap + 1) := by
    simp [getLog, hcl, hsz]
  have h1 : getLog st 1 = [] := by
    simp [getLog, hcl]
  rw [reconstruct, h0, h1, List.append_nil]
  rw [readCStr_spec st.buf w.length 0 (cap + 1) ?_ (by simpa using hnul) (by omega)]
  · calc (List.range w.length).map (fun t => st.buf (0 + t))
        = (List.range w.length).map (fun t => w.getD t 0) := by
          apply List.map_congr_left
          intro t ht
          simp only [List.mem_range] at ht
          rw [Nat.zero_add]
          exact hdata t ht
      _ = w := map_getD_range w
  · intro t ht
    rw [Nat.zero_add, hdata t ht]
    exact getD_ne_zero hnz ht

/-- The byte a clipped post-call state holds at logical offset `i` of
the circular content starting right after the terminator: first the
marker, then the retained data suffix. -/
theorem cell_value {cap : Nat} (hcap : 8 ≤ cap) {w : List Nat} {st : LogBuffer}
    (hinv : InvClipped cap w.length w st) (hge : cap ≤ w.length + 1)
    (i : Nat) (hi : i < cap - 1) :
    st.buf ((w.length + 1 + i) % cap) =
      if i < 6 then markerBytes.getD i 0 else w.getD (w.length + 1 + i - cap) 0 := by
  obtain ⟨hsz, hcl, hai, hn0, hcap0, hnul, hmark, hdata⟩ := hinv
  by_cases h6 : i < 6
  · rw [if_pos h6, hmark (w.length + 1 + i) (by omega) (by omega) (by omega)]
    congr 1
    omega
  · rw [if_neg h6]
    exact hdata (w.length + 1 + i) (by omega) (by omega) (by omega) (by omega)

/-- Position of the part-0 cells of a clipped buffer in the circular
content. -/
theorem mod_part0 {cap : Nat} (hcappos : 0 < cap) (n t : Nat)
    (h : n % cap + 1 + t < cap) : (n + 1 + t) % cap = n % cap + 1 + t := by
  rw [show n + 1 + t = n + (1 + t) by omega, ← Nat.mod_add_mod,
    Nat.mod_eq_of_lt (by omega)]
  omega

/-- Position of the part-1 cells of a clipped buffer in the circular
content. -/
theorem mod_part1 {cap : Nat} (hcappos : 0 < cap) (n t : Nat) (ht : t < n % cap) :
    (n + 1 + (cap - 1 - n % cap + t)) % cap = t := by
  have ha : n % cap < cap := Nat.mod_lt _ hcappos
  rw [show n + 1 + (cap - 1 - n % cap + t) = n + (cap - n % cap + t) by omega,
    ← Nat.mod_add_mod,
    show n % cap + (cap - n % cap + t) = cap + t by omega,
    Nat.add_mod_left, Nat.mod_eq_of_lt (by omega)]

/-- Part 0 of a clipped post-call state: the raw cells from
`appendIndex + 1` up to the permanent `'\0'` at cell `bufSize`. -/
theorem getLog0_clipped {cap : Nat} (hcap : 8 ≤ cap) {w : List Nat} {st : LogBuffer}
    (hinv : InvClipped cap w.length w st) (hge : cap ≤ w.length + 1)
    (hnz : ∀ x ∈ w, x ≠ 0) :
    getLog st 0 =
      (List.range (cap - 1 - w.length % cap)).map
        (fun t => st.buf (w.length % cap + 1 + t)) := by
  have hcappos : 0 < cap := by omega
  have hcell := cell_value hcap hinv hge
  obtain ⟨hsz, hcl, hai, hn0, hcap0, hnul, hmark, hdata⟩ := hinv
  have ha : w.length % cap < cap := Nat.mod_lt _ hcappos
  have hg : getLog st 0 = readCStr st.buf (w.length % cap + 1) (cap + 1) := by
    simp [getLog, hcl, hai, hsz]
  rw [hg]
  apply readCStr_spec
  · intro t ht
    rw [← mod_part0 hcappos w.length t (by omega), hcell t (by omega)]
    by_cases h6 : t < 6
    · rw [if_pos h6]
      exact markerBytes_getD_ne_zero t h6
    · rw [if_neg h6]
      exact getD_ne_zero hnz (by omega)
  · rw [show w.length % cap + 1 + (cap - 1 - w.length % cap) = cap by omega]
    exact hcap0
  · omega

/-- Part 1 of a clipped post-call state: the raw cells from `0` up to
the terminator written at `appendIndex`. -/
theorem getLog1_clipped {cap : Nat} (hcap : 8 ≤ cap) {w : List Nat} {st : LogBuffer}
    (hinv : InvClipped cap w.length w st) (hge : cap ≤ w.length + 1)
    (hnz : ∀ x ∈ w, x ≠ 0) :
    getLog st 1 = (List.range (w.length % cap)).map (fun t => st.buf (0 + t)) := by
  have hcappos : 0 < cap := by omega
  have hcell := cell_value hcap hinv hge
  obtain ⟨hsz, hcl, hai, hn0, hcap0, hnul, hmark, hdata⟩ := hinv
  have ha : w.length % cap < cap := Nat.mod_lt _ hcappos
  have hg : getLog st 1 = readCStr st.buf 0 (cap + 1) := by
    simp [getLog, hcl, hsz]
  rw [hg]
  apply readCStr_spec
  · intro t ht
    rw [Nat.zero_add, ← mod_part1 hcappos w.length t ht,
      hcell (cap - 1 - w.length % cap + t) (by omega)]
    by_cases h6 : cap - 1 - w.length % cap + t < 6
    · rw [if_pos h6]
      exact markerBytes_getD_ne_zero _ h6
    · rw [if_neg h6]
      exact getD_ne_zero hnz (by omega)
  · rw [Nat.zero_add]
    exact hnul rfl
  · omega

/-- Clipped post-call state: the accessor returns the truncation marker
followed by the last `cap - 7` written bytes. -/
theorem reconstruct_clipped {cap : Nat} (hcap : 8 ≤ cap) {w : List Nat} {st : LogBuffer}
    (hinv : InvClipped cap w.length w st) (hge : cap ≤ w.length + 1)
    (hnz : ∀ x ∈ w, x ≠ 0) :
    reconstruct st = markerBytes ++ w.drop (w.length - (cap - 7)) := by
  have hcappos : 0 < cap := by omega
  have hcell := cell_value hcap hinv hge
  have hp0 := getLog0_clipped hcap hinv hge hnz
  have hp1 := getLog1_clipped hcap hinv hge hnz
  obtain ⟨hsz, hcl, hai, hn0, hcap0, hnul, hmark, hdata⟩ := hinv
  have ha : w.length % cap < cap := Nat.mod_lt _ hcappos
  rw [reconstruct, hp0, hp1]
  have hmblen : markerBytes.length = 6 := by decide
  apply List.ext_getElem
  · simp only [List.length_append, List.length_map, List.length_range,
      List.length_drop, hmblen]
    omega
  · intro i hiL hiR
    simp only [List.length_append, List.length_map, List.length_range] at hiL
    have hiw : i < cap - 1 := by omega
    -- left side: the cell at circular offset i behind the terminator
    have hlen : i < ((List.range (cap - 1 - w.length % cap)).map
            (fun t => st.buf (w.length % cap + 1 + t)) ++
          (List.range (w.length % cap)).map (fun t => st.buf (0 + t))).length := by
      simp only [List.length_append, List.length_map, List.length_range]
      omega
    have hleft :
        ((List.range (cap - 1 - w.length % cap)).map
            (fun t => st.buf (w.length % cap + 1 + t)) ++
          (List.range (w.length % cap)).map (fun t => st.buf (0 + t))).get ⟨i, hlen⟩ =
        st.buf ((w.length + 1 + i) % cap) := by
      rw [List.get_eq_getElem]
      by_cases hp : i < cap - 1 - w.length % cap
      · rw [List.getElem_append_left (by simpa using hp)]
        simp only [List.getElem_map, List.getElem_range]
        rw [mod_part0 hcappos w.length i (by omega)]
      · rw [List.getElem_append_right (by simpa using hp)]
        simp only [List.getElem_map, List.getElem_range, List.length_map,
          List.length_range, Nat.zero_add]
        rw [show w.length + 1 + i =
            w.length + 1 + (cap - 1 - w.length % cap + (i - (cap - 1 - w.length % cap)))
          by omega,
          mod_part1 hcappos w.length _ (by omega)]
    refine Eq.trans (hleft.trans (hcell i hiw)) ?_
    -- right side
    by_cases h6 : i < 6
    · rw [if_pos h6,
        List.getElem_append_left (show i < markerBytes.length by rw [hmblen]; omega)]
      exact List.getD_eq_getElem markerBytes 0
        (show i < markerBytes.length by rw [hmblen]; omega)
    · rw [if_neg h6,
        List.getElem_append_right (show markerBytes.length ≤ i by rw [hmblen]; omega)]
      rw [List.getElem_drop]
      rw [← List.getD_eq_getElem w 0]
      congr 1
      rw [hmblen]
      omega

/-! ### The chunked reader drains exactly the circular content -/

/-- Length of the logical content served by the chunked reader. -/
def rawLen (st : LogBuffer) : Nat :=
  if st.clipped then st.bufSize - 1 else st.appendIndex

/-- Byte at logical offset `j` served by the chunked reader: part 0 is
the raw cells behind the cursor, part 1 the cells before it. -/
def rawAt (st : LogBuffer) (j : Nat) : Nat :=
  if st.clipped then
    if j < st.bufSize - 1 - st.appendIndex then st.buf (st.appendIndex + 1 + j)
    else st.buf (j - (st.bufSize - 1 - st.appendIndex))
  else st.buf j

def rawLog (st : LogBuffer) : List Nat :=
  (List.range (rawLen st)).map (rawAt st)

theorem rawLog_length (st : LogBuffer) : (rawLog st).length = rawLen st := by
  simp [rawLog]

theorem csub_eq {x y : Nat} (hy : y ≤ x) (hx : x < SIZE_MOD) : csub x y = x - y := by
  unfold csub
  have hs : 0 < SIZE_MOD := by unfold SIZE_MOD; omega
  rw [show x + (SIZE_MOD - y) = (x - y) + SIZE_MOD by omega, Nat.add_mod_right,
    Nat.mod_eq_of_lt (by omega)]

/-- One call of the chunked reader, at a drain position: it reports some
chunk of the logical content starting at `index`, of nonzero size unless
the content is exhausted, and keeps `bufferRollIndex` at the append
cursor. -/
theorem copyLog_eq {b : Nat → Nat} {maxTargetLen startIndex srcOfs availableLogLen : Nat}
    (hml : maxTargetLen ≠ 0) (hs : startIndex ≤ availableLogLen)
    (hav : availableLogLen < SIZE_MOD) :
    copyLog b maxTargetLen startIndex srcOfs availableLogLen =
      (min (availableLogLen - startIndex) maxTargetLen,
       (List.range (min (availableLogLen - startIndex) maxTargetLen)).map
         (fun i => b (srcOfs + startIndex + i))) := by
  unfold copyLog
  rw [if_neg (by intro h; exact hml h.1), csub_eq hs hav]
  have : (if availableLogLen - startIndex < maxTargetLen then
      availableLogLen - startIndex else maxTargetLen) =
      min (availableLogLen - startIndex) maxTargetLen := by
    rw [Nat.min_def]
    split <;> split <;> omega
  rw [this]

theorem getLogChunked_step {st : LogBuffer} (hsz : st.bufSize < SIZE_MOD)
    (ha : st.appendIndex < st.bufSize) {maxLen index roll : Nat} (hml : maxLen ≠ 0)
    (hroll : index = 0 ∨ roll = st.appendIndex) (hidx : index ≤ rawLen st) :
    ∃ cl, getLogChunked st maxLen index roll =
        (cl, (List.range cl).map (fun i => rawAt st (index + i)), st.appendIndex) ∧
      index + cl ≤ rawLen st ∧ (index < rawLen st → 1 ≤ cl) := by
  have hrollv : (if index = 0 ∨ st.clipped = false then st.appendIndex else roll) =
      st.appendIndex := by
    split
    · rfl
    · rename_i hcond
      push_neg at hcond
      rcases hroll with h | h
      · exact absurd h hcond.1
      · exact h
  unfold getLogChunked
  rw [hrollv]
  by_cases hcl : st.clipped = true
  · have hrl : rawLen st = st.bufSize - 1 := by simp [rawLen, hcl]
    rw [hrl] at hidx
    have hc1 : csub st.bufSize st.appendIndex = st.bufSize - st.appendIndex :=
      csub_eq (by omega) hsz
    have hc2 : csub (st.bufSize - st.appendIndex) 1 = st.bufSize - st.appendIndex - 1 :=
      csub_eq (by omega) (by omega)
    rw [if_pos hcl, if_neg (show ¬ index ≥ st.bufSize by omega), hc1, hc2]
    by_cases hpart : index + 1 < st.bufSize - st.appendIndex
    · -- part 0
      rw [if_pos hpart,
        copyLog_eq hml (show index ≤ st.bufSize - st.appendIndex - 1 by omega)
          (by omega)]
      refine ⟨min (st.bufSize - st.appendIndex - 1 - index) maxLen, ?_, by
        rw [hrl]; omega, by rw [hrl]; omega⟩
      simp only [Prod.mk.injEq]
      refine ⟨trivial, ?_, trivial⟩
      apply List.map_congr_left
      intro i hi
      simp only [List.mem_range] at hi
      unfold rawAt
      rw [if_pos hcl, if_pos (by omega)]
      rw [show st.appendIndex + 1 + index + i = st.appendIndex + 1 + (index + i) by omega]
    · -- part 1
      rw [if_neg hpart,
        csub_eq (show st.bufSize - st.appendIndex - 1 ≤ index by omega) (by omega),
        copyLog_eq hml
          (show index - (st.bufSize - st.appendIndex - 1) ≤ st.appendIndex by omega)
          (by omega)]
      refine ⟨min (st.appendIndex - (index - (st.bufSize - st.appendIndex - 1))) maxLen,
        ?_, by rw [hrl]; omega, by rw [hrl]; omega⟩
      simp only [Prod.mk.injEq]
      refine ⟨trivial, ?_, trivial⟩
      apply List.map_congr_left
      intro i hi
      simp only [List.mem_range] at hi
      unfold rawAt
      rw [if_pos hcl, if_neg (by omega)]
      rw [show 0 + (index - (st.bufSize - st.appendIndex - 1)) + i =
        index + i - (st.bufSize - 1 - st.appendIndex) by omega]
  · have hclf : st.clipped = false := by
      simpa using hcl
    have hrl : rawLen st = st.appendIndex := by simp [rawLen, hclf]
    rw [hrl] at hidx
    rw [if_neg (by rw [hclf]; simp)]
    by_cases hlt : index < st.appendIndex
    · rw [if_pos hlt,
        copyLog_eq hml (show index ≤ st.appendIndex by omega) (by omega)]
      refine ⟨min (st.appendIndex - index) maxLen, ?_, by rw [hrl]; omega,
        by rw [hrl]; omega⟩
      simp only [Prod.mk.injEq]
      refine ⟨trivial, ?_, trivial⟩
      apply List.map_congr_left
      intro i hi
      simp only [List.mem_range] at hi
      unfold rawAt
      rw [if_neg (by rw [hclf]; simp)]
      rw [show 0 + index + i = index + i by omega]
    · rw [if_neg hlt]
      refine ⟨0, by simp, by rw [hrl]; omega, by rw [hrl]; omega⟩

theorem rawLog_drop_chunk {st : LogBuffer} {index cl : Nat} (h : index + cl ≤ rawLen st) :
    (rawLog st).drop index =
      (List.range cl).map (fun i => rawAt st (index + i)) ++ (rawLog st).drop (index + cl) := by
  apply List.ext_getElem
  · simp only [List.length_drop, rawLog_length, List.length_append, List.length_map,
      List.length_range]
    omega
  · intro i h1 h2
    simp only [List.length_drop, rawLog_length] at h1
    rw [List.getElem_drop]
    by_cases hc : i < cl
    · rw [List.getElem_append_left (show i <
        ((List.range cl).map (fun i => rawAt st (index + i))).length by
          simp only [List.length_map, List.length_range]; omega)]
      simp only [List.getElem_map, List.getElem_range]
      simp only [rawLog, List.getElem_map, List.getElem_range]
    · rw [List.getElem_append_right (show
        ((List.range cl).map (fun i => rawAt st (index + i))).length ≤ i by
          simp only [List.length_map, List.length_range]; omega)]
      rw [List.getElem_drop]
      simp only [List.length_map, List.length_range, rawLog, List.getElem_map,
        List.getElem_range]
      rw [show index + cl + (i - cl) = index + i by omega]

theorem drainLog_spec {st : LogBuffer} (hsz : st.bufSize < SIZE_MOD)
    (ha : st.appendIndex < st.bufSize) {maxLen : Nat} (hml : maxLen ≠ 0) :
    ∀ (fuel index roll : Nat), (index = 0 ∨ roll = st.appendIndex) →
      index ≤ rawLen st → rawLen st - index < fuel →
      drainLog st maxLen fuel index roll = (rawLog st).drop index := by
  intro fuel
  induction fuel with
  | zero => intro index roll _ _ h2; omega
  | succ f ih =>
    intro index roll hroll h1 h2
    obtain ⟨cl, hG, hle, hpos⟩ := getLogChunked_step hsz ha hml hroll h1
    simp only [drainLog, hG]
    rcases Nat.eq_zero_or_pos cl with hcl0 | hcl1
    · subst hcl0
      rw [if_pos rfl]
      have hstop : index = rawLen st := by
        by_contra hne
        have := hpos (by omega)
        omega
      rw [List.drop_eq_nil_of_le (by rw [rawLog_length]; omega)]
    · rw [if_neg (by omega)]
      rw [ih (index + cl) st.appendIndex (Or.inr rfl) hle (by omega)]
      exact (rawLog_drop_chunk hle).symm

theorem drainLog_eq_rawLog {st : LogBuffer} (hsz : st.bufSize < SIZE_MOD)
    (ha : st.appendIndex < st.bufSize) {maxLen : Nat} (hml : maxLen ≠ 0)
    {fuel : Nat} (hf : rawLen st < fuel) (roll0 : Nat) :
    drainLog st maxLen fuel 0 roll0 = rawLog st := by
  have h := drainLog_spec hsz ha hml fuel 0 roll0 (Or.inl rfl) (by omega) (by omega)
  simpa using h

/-- The raw circular content equals what the two-call accessor returns,
on any post-call state. -/
theorem rawLog_eq_reconstruct {cap : Nat} (hcap : 8 ≤ cap) {w : List Nat}
    {st : LogBuffer} (hpost : PostInv cap w st) (hnz : ∀ x ∈ w, x ≠ 0) :
    rawLog st = reconstruct st := by
  rcases hpost with ⟨hfresh, hlen, hnul⟩ | ⟨hge, hclip⟩
  · obtain ⟨hsz, hcl, hai, hlt, hcap0, hdata⟩ := hfresh
    rw [reconstruct_fresh ⟨⟨hsz, hcl, hai, hlt, hcap0, hdata⟩, hlen, hnul⟩ hnz]
    have hrl : rawLen st = w.length := by simp [rawLen, hcl, hai]
    unfold rawLog
    rw [hrl]
    calc (List.range w.length).map (rawAt st)
        = (List.range w.length).map (fun t => w.getD t 0) := by
          apply List.map_congr_left
          intro t ht
          simp only [List.mem_range] at ht
          unfold rawAt
          rw [if_neg (by rw [hcl]; simp)]
          exact hdata t ht
      _ = w := map_getD_range w
  · have h0 := getLog0_clipped hcap hclip hge hnz
    have h1 := getLog1_clipped hcap hclip hge hnz
    obtain ⟨hsz, hcl, hai, hn0, hcap0, hnul, hmark, hdata⟩ := hclip
    have hcappos : 0 < cap := by omega
    have ha : w.length % cap < cap := Nat.mod_lt _ hcappos
    rw [reconstruct, h0, h1]
    have hrl : rawLen st = cap - 1 := by simp [rawLen, hcl, hsz]
    unfold rawLog
    rw [hrl]
    apply List.ext_getElem
    · simp only [List.length_map, List.length_range, List.length_append]
      omega
    · intro i h1' h2'
      simp only [List.length_map, List.length_range] at h1'
      simp only [List.getElem_map, List.getElem_range]
      unfold rawAt
      rw [if_pos hcl]
      by_cases hp : i < cap - 1 - w.length % cap
      · rw [if_pos (by rw [hsz, hai]; omega),
          List.getElem_append_left (show i <
            ((List.range (cap - 1 - w.length % cap)).map
              (fun t => st.buf (w.length % cap + 1 + t))).length by
            simp only [List.length_map, List.length_range]; omega)]
        simp only [List.getElem_map, List.getElem_range, hsz, hai]
      · rw [if_neg (by rw [hsz, hai]; omega),
          List.getElem_append_right (show
            ((List.range (cap - 1 - w.length % cap)).map
              (fun t => st.buf (w.length % cap + 1 + t))).length ≤ i by
            simp only [List.length_map, List.length_range]; omega)]
        simp only [List.getElem_map, List.getElem_range, List.length_map,
          List.length_range, hsz, hai, Nat.zero_add]

/-! ### Cursor arithmetic and expansion bookkeeping -/

/-- `clear()` leaves the buffer exactly as freshly constructed over its
current memory. -/
theorem clear_eq_mk0 (st : LogBuffer) :
    clear st = mk0 st.bufSize st.encodePercent st.buf := rfl

theorem writeRaw_bufSize (st : LogBuffer) (b : Nat) :
    (writeRaw st b).bufSize = st.bufSize := rfl

theorem bufEnd_bufSize (st : LogBuffer) : (bufEnd st).bufSize = st.bufSize := by
  cases hb : st.clipped || (incWithRollover st.bufSize st.appendIndex).2.2 <;>
    simp [bufEnd, hb]

theorem bufEnd_appendIndex (st : LogBuffer) :
    (bufEnd st).appendIndex = st.appendIndex := by
  cases hb : st.clipped || (incWithRollover st.bufSize st.appendIndex).2.2 <;>
    simp [bufEnd, hb]

theorem writeRaw_appendIndex {st : LogBuffer} (h : st.appendIndex < st.bufSize) (b : Nat) :
    (writeRaw st b).appendIndex = (st.appendIndex + 1) % st.bufSize := by
  by_cases hx : st.appendIndex + 1 < st.bufSize
  · rw [writeRaw_eq_of_lt hx]
    simp [Nat.mod_eq_of_lt hx]
  · have hx2 : st.appendIndex + 1 = st.bufSize := by omega
    rw [writeRaw_eq_of_ge (by omega)]
    simp [hx2, Nat.mod_self]

theorem foldRaw_appendIndex {cap : Nat} (hcap : 0 < cap) :
    ∀ (e : List Nat) (st : LogBuffer), st.bufSize = cap → st.appendIndex < cap →
      (e.foldl writeRaw st).appendIndex = (st.appendIndex + e.length) % cap := by
  intro e
  induction e with
  | nil =>
    intro st hsz ha
    simp [Nat.mod_eq_of_lt ha]
  | cons c rest ih =>
    intro st hsz ha
    have h1 : (writeRaw st c).appendIndex = (st.appendIndex + 1) % cap := by
      rw [writeRaw_appendIndex (by omega) c, hsz]
    have h2 := ih (writeRaw st c) (by rw [writeRaw_bufSize, hsz])
      (by rw [h1]; exact Nat.mod_lt _ hcap)
    simp only [List.foldl_cons, List.length_cons]
    rw [h2, h1, Nat.mod_add_mod]
    congr 1
    omega

/-- The cursor advance of a complete `write(const char *)` call: one per
stored byte (so two per `'%'` with percent-doubling), modulo the
capacity. -/
theorem write_appendIndex (st : LogBuffer) (hcap : 0 < st.bufSize)
    (ha : st.appendIndex < st.bufSize) (m : List Nat) :
    (write st m).1.appendIndex =
      (st.appendIndex + (expandEnc st.encodePercent m).length) % st.bufSize := by
  show (writeStr st m).appendIndex = _
  rw [writeStr_eq_raw, bufEnd_appendIndex,
    foldRaw_appendIndex hcap (expandEnc st.encodePercent m) st rfl ha]

theorem expandEnc_false (m : List Nat) : expandEnc false m = m := by
  induction m with
  | nil => rfl
  | cons c rest ih => simp [expandEnc, ih]

theorem expandEnc_true_length (m : List Nat) :
    (expandEnc true m).length = m.length + m.count 37 := by
  induction m with
  | nil => rfl
  | cons c rest ih =>
    simp only [expandEnc, Bool.true_and]
    by_cases h : c == 37
    · rw [if_pos h]
      have hc : c = 37 := by simpa using h
      simp [ih, List.count_cons, hc]
      omega
    · rw [if_neg h]
      have hc : ¬ c = 37 := by simpa using h
      simp [ih, List.count_cons, hc]
      omega

theorem mem_expandEnc {enc : Bool} {m : List Nat} {x : Nat} :
    x ∈ expandEnc enc m → x ∈ m := by
  induction m with
  | nil => intro h; simp [expandEnc] at h
  | cons c rest ih =>
    intro h
    simp only [expandEnc] at h
    by_cases hb : enc && c == 37
    · rw [if_pos hb] at h
      simp only [List.mem_cons] at h ⊢
      rcases h with h | h | h
      · exact Or.inl h
      · exact Or.inl h
      · exact Or.inr (ih h)
    · rw [if_neg hb] at h
      simp only [List.mem_cons] at h ⊢
      rcases h with h | h
      · exact Or.inl h
      · exact Or.inr (ih h)

end LogBuffer

namespace Hc12

/-- A non-NUL expected response that arrives as a verbatim leading run of
the input is matched completely, leaving the rest of the input
unread. -/
theorem readExpectedResponse_match (e : List Nat) (he : ∀ b ∈ e, b ≠ 0)
    (tol : Bool) (input : List Nat) :
    ∀ (k pos : Nat), e.length - pos ≤ k → pos ≤ e.length →
      readExpectedResponse e tol (e.drop pos ++ input) pos = (true, input) := by
  intro k
  induction k with
  | zero =>
    intro pos h1 h2
    have hpos : pos = e.length := by omega
    subst hpos
    rw [List.drop_length, List.nil_append]
    have hgd : e.getD e.length 0 = 0 := List.getD_eq_default e 0 (le_refl _)
    cases input with
    | nil => simp [readExpectedResponse, hgd]
    | cons x rest => simp [readExpectedResponse, hgd]
  | succ k ih =>
    intro pos h1 h2
    by_cases hpos : pos = e.length
    · subst hpos
      rw [List.drop_length, List.nil_append]
      have hgd : e.getD e.length 0 = 0 := List.getD_eq_default e 0 (le_refl _)
      cases input with
      | nil => simp [readExpectedResponse, hgd]
      | cons x rest => simp [readExpectedResponse, hgd]
    · have hlt : pos < e.length := by omega
      rw [List.drop_eq_getElem_cons hlt, List.cons_append]
      have hgd : e.getD pos 0 = e[pos] := List.getD_eq_getElem e 0 hlt
      have hne : ¬ e.getD pos 0 = 0 := by
        rw [hgd]
        exact he _ (List.getElem_mem hlt)
      unfold readExpectedResponse
      rw [if_neg hne, if_pos hgd.symm]
      exact ih (pos + 1) (by omega) (by omega)

theorem probeLoop_cons (resp : Nat → List Nat) (tool : Tool) (r : Nat) (rest : List Nat) :
    probeLoop resp tool (r :: rest) =
      if atProbe resp r false then (true, changeBaudRate tool r, [(r, false)])
      else
        let k := probeLoop resp (changeBaudRate tool r) rest
        (k.1, k.2.1, (r, false) :: k.2.2) := rfl

theorem probeLoop_all_fail (resp : Nat → List Nat) :
    ∀ (rates : List Nat) (tool : Tool), (∀ r ∈ rates, atProbe resp r false = false) →
      probeLoop resp tool rates =
        (false, { tool with baud := rates.getLastD tool.baud },
          rates.map (fun r => (r, false))) := by
  intro rates
  induction rates with
  | nil => intro tool _; rfl
  | cons r rest ih =>
    intro tool h
    rw [probeLoop_cons, if_neg (by rw [h r (List.mem_cons_self r rest)]; simp)]
    rw [ih (changeBaudRate tool r) (fun x hx => h x (List.mem_cons_of_mem r hx))]
    rw [List.getLastD_cons]
    simp [changeBaudRate]

theorem probeLoop_found (resp : Nat → List Nat) :
    ∀ (front : List Nat) (r : Nat) (rest : List Nat) (tool : Tool),
      (∀ x ∈ front, atProbe resp x false = false) → atProbe resp r false = true →
      probeLoop resp tool (front ++ r :: rest) =
        (true, { tool with baud := r },
          front.map (fun x => (x, false)) ++ [(r, false)]) := by
  intro front
  induction front with
  | nil =>
    intro r rest tool _ hr
    rw [List.nil_append, probeLoop_cons, if_pos (by rw [hr])]
    simp [changeBaudRate]
  | cons x xs ih =>
    intro r rest tool h hr
    rw [List.cons_append, probeLoop_cons,
      if_neg (by rw [h x (List.mem_cons_self x xs)]; simp)]
    rw [ih r rest (changeBaudRate tool x) (fun y hy => h y (List.mem_cons_of_mem x hy)) hr]
    simp [changeBaudRate]

theorem readExpectedResponse_leading (e : List Nat) (he : ∀ b ∈ e, b ≠ 0) (tol : Bool)
    (input : List Nat) :
    readExpectedResponse e tol (e ++ input) 0 = (true, input) := by
  have h := readExpectedResponse_match e he tol input e.length 0 (by omega) (by omega)
  rwa [List.drop_zero] at h

theorem queryMatches_leading {eqResp eqValue : List Nat}
    (hq : ∀ b ∈ eqResp, b ≠ 0) (hv : ∀ b ∈ eqValue, b ≠ 0) (rest : List Nat) :
    queryMatches eqResp eqValue (eqResp ++ eqValue ++ rest) = true := by
  unfold queryMatches
  rw [List.append_assoc, readExpectedResponse_leading eqResp hq false (eqValue ++ rest)]
  simp [readExpectedResponse_leading eqValue hv false rest]

theorem sendValidatedAt_fail {tool : Tool} {resp : Nat → List Nat} {t : Bool}
    (hfail : ∀ b tl, atProbe resp b tl = false) :
    (sendValidatedAt tool resp t).1 = false := by
  unfold sendValidatedAt
  split
  · rfl
  · simp [hfail]

theorem sendValidatedAt_send {tool : Tool} {resp : Nat → List Nat} {t : Bool}
    (hw : t = false ∨ tool.waitForAvailableWrite = 0 ∨ tool.availableForWrite = true) :
    sendValidatedAt tool resp t = (atProbe resp tool.baud t, [(tool.baud, t)]) := by
  unfold sendValidatedAt
  rw [if_neg ?_]
  rintro ⟨h1, h2, h3⟩
  rcases hw with h | h | h
  · rw [h] at h1
    exact Bool.false_ne_true h1
  · exact h2 h
  · rw [h] at h3
    exact absurd h3 (by simp)

theorem probeLoop_spec_idx (resp : Nat → List Nat) :
    ∀ (rates : List Nat) (tool : Tool) (i : Nat),
      i < rates.length → (∀ j, j < i → atProbe resp (rates.getD j 0) false = false) →
      atProbe resp (rates.getD i 0) false = true →
      probeLoop resp tool rates =
        (true, { tool with baud := rates.getD i 0 },
          (rates.take (i + 1)).map (fun r => (r, false))) := by
  intro rates
  induction rates with
  | nil => intro tool i hi _ _; simp at hi
  | cons r rest ih =>
    intro tool i hi hf hs
    cases i with
    | zero =>
      rw [probeLoop_cons, if_pos (by simpa using hs)]
      simp [changeBaudRate]
    | succ i =>
      rw [probeLoop_cons, if_neg (by
        have h0 := hf 0 (by omega)
        simp only [List.getD_cons_zero] at h0
        rw [h0]
        simp)]
      rw [ih (changeBaudRate tool r) i (by simpa using hi)
        (fun j hj => by
          have := hf (j + 1) (by omega)
          simpa using this)
        (by simpa using hs)]
      simp [changeBaudRate]

end Hc12

/-! ## Claim theorems -/

/-- Claim C1, counterexample to the stated bound: a single `write` call
of 15 bytes — total byte count at most the capacity 16 — already leaves
the buffer clipped, with the truncation marker inserted and the
reconstruction unequal to the written bytes (the terminator write of
`bufEnd` rolls the local cursor over and sets `clipped` at total
capacity − 1). -/
theorem c1_counterexample :
    [49, 50, 51, 52, 53, 54, 55, 56, 57, 48, 49, 50, 51, 52, 53].length ≤ 16 ∧
    LogBuffer.reconstruct (LogBuffer.writeStr (LogBuffer.mk0 16 false (fun _ => 0))
        [49, 50, 51, 52, 53, 54, 55, 56, 57, 48, 49, 50, 51, 52, 53]) ≠
      [49, 50, 51, 52, 53, 54, 55, 56, 57, 48, 49, 50, 51, 52, 53] ∧
    (LogBuffer.writeStr (LogBuffer.mk0 16 false (fun _ => 0))
        [49, 50, 51, 52, 53, 54, 55, 56, 57, 48, 49, 50, 51, 52, 53]).clipped = true := by
  decide

/-- Claim C1 (amended): for every sequence of `write` calls to a freshly
constructed (or freshly cleared, cf. `LogBuffer.clear_eq_mk0`) buffer
without percent-doubling, whose total byte count is at most
capacity − 2, concatenating part 0 and part 1 of the two-call `getLog`
accessor reconstructs exactly the concatenation of all written bytes in
order and the buffer is not clipped (hence no truncation marker was
written).  The capacity bounds reflect `LOGBUF_LENGTH` fitting the
16-bit `word` index type. -/
theorem c1_unclipped_reconstruction (cap : Nat) (mem : Nat → Nat)
    (calls : List (List Nat)) (hcap : 8 ≤ cap) (hword : cap ≤ 65535)
    (hnz : ∀ m ∈ calls, ∀ b ∈ m, b ≠ 0)
    (hle : calls.flatten.length ≤ cap - 2) :
    LogBuffer.reconstruct (LogBuffer.processCalls cap false mem calls) = calls.flatten ∧
    (LogBuffer.processCalls cap false mem calls).clipped = false := by
  have hpost := LogBuffer.processCalls_inv hcap false mem calls
  have hexp : calls.map (LogBuffer.expandEnc false) = calls := by
    calc calls.map (LogBuffer.expandEnc false) = calls.map id :=
          List.map_congr_left (fun m _ => LogBuffer.expandEnc_false m)
      _ = calls := List.map_id calls
  rw [hexp] at hpost
  have hnzf : ∀ x ∈ calls.flatten, x ≠ 0 := by
    intro x hx
    rw [List.mem_flatten] at hx
    obtain ⟨m, hm, hxm⟩ := hx
    exact hnz m hm x hxm
  rcases hpost with ⟨hfresh, hlen, hnul⟩ | ⟨hge, hclip⟩
  · exact ⟨LogBuffer.reconstruct_fresh ⟨hfresh, hlen, hnul⟩ hnzf, hfresh.2.1⟩
  · omega

theorem c1_unclipped_reconstruction_witness :
    LogBuffer.reconstruct
        (LogBuffer.processCalls 16 false (fun _ => 0) [[97, 98], [99]]) =
      [97, 98, 99] ∧
    (LogBuffer.processCalls 16 false (fun _ => 0) [[97, 98], [99]]).clipped = false := by
  have h := c1_unclipped_reconstruction 16 (fun _ => 0) [[97, 98], [99]]
    (by decide) (by decide) (by decide) (by decide)
  exact ⟨h.1.trans rfl, h.2⟩

/-- Claim C2, counterexample to the stated count: with capacity 16 and
20 written bytes (exceeding the capacity), the reconstruction is not
the marker followed by the last capacity − markerLength = 10 bytes; the
terminator cell costs one more byte. -/
theorem c2_counterexample :
    16 < [49, 50, 51, 52, 53, 54, 55, 56, 57, 48,
          97, 98, 99, 100, 101, 102, 103, 104, 105, 106].length ∧
    LogBuffer.reconstruct (LogBuffer.writeStr (LogBuffer.writeStr
        (LogBuffer.mk0 16 false (fun _ => 0))
        [49, 50, 51, 52, 53, 54, 55, 56, 57, 48])
        [97, 98, 99, 100, 101, 102, 103, 104, 105, 106]) ≠
      markerBytes ++
        [49, 50, 51, 52, 53, 54, 55, 56, 57, 48,
         97, 98, 99, 100, 101, 102, 103, 104, 105, 106].drop (20 - (16 - 6)) := by
  decide

/-- Claim C2 (amended): for every sequence of `write` calls (no
percent-doubling) whose total byte count is at least capacity − 1 —
in particular whenever it exceeds the capacity — the reconstructed log
equals the truncation marker `"[...] "` followed by exactly the last
capacity − markerLength − 1 bytes written, and the buffer is clipped:
one buffer cell is spent on the `'\0'` terminator, so markerLength + 1
= 7 cells are unavailable for data. -/
theorem c2_rollover_reconstruction (cap : Nat) (mem : Nat → Nat)
    (calls : List (List Nat)) (hcap : 8 ≤ cap) (hword : cap ≤ 65535)
    (hnz : ∀ m ∈ calls, ∀ b ∈ m, b ≠ 0)
    (hge : cap - 1 ≤ calls.flatten.length) :
    LogBuffer.reconstruct (LogBuffer.processCalls cap false mem calls) =
      markerBytes ++
        calls.flatten.drop (calls.flatten.length - (cap - 7)) ∧
    (LogBuffer.processCalls cap false mem calls).clipped = true := by
  have hpost := LogBuffer.processCalls_inv hcap false mem calls
  have hexp : calls.map (LogBuffer.expandEnc false) = calls := by
    calc calls.map (LogBuffer.expandEnc false) = calls.map id :=
          List.map_congr_left (fun m _ => LogBuffer.expandEnc_false m)
      _ = calls := List.map_id calls
  rw [hexp] at hpost
  have hnzf : ∀ x ∈ calls.flatten, x ≠ 0 := by
    intro x hx
    rw [List.mem_flatten] at hx
    obtain ⟨m, hm, hxm⟩ := hx
    exact hnz m hm x hxm
  rcases hpost with ⟨hfresh, hlen, hnul⟩ | ⟨hge2, hclip⟩
  · omega
  · exact ⟨LogBuffer.reconstruct_clipped hcap hclip hge2 hnzf, hclip.2.1⟩

theorem c2_rollover_reconstruction_witness :
    LogBuffer.reconstruct (LogBuffer.processCalls 16 false (fun _ => 0)
        [[65, 66, 67, 68, 69, 70, 71, 72, 73, 74, 75, 76, 77, 78, 79, 80, 81, 82, 83, 84]]) =
      markerBytes ++ [76, 77, 78, 79, 80, 81, 82, 83, 84] ∧
    (LogBuffer.processCalls 16 false (fun _ => 0)
        [[65, 66, 67, 68, 69, 70, 71, 72, 73, 74, 75, 76, 77, 78, 79, 80, 81, 82, 83, 84]]).clipped =
      true := by
  have h := c2_rollover_reconstruction 16 (fun _ => 0)
    [[65, 66, 67, 68, 69, 70, 71, 72, 73, 74, 75, 76, 77, 78, 79, 80, 81, 82, 83, 84]]
    (by decide) (by decide) (by decide) (by decide)
  exact ⟨h.1.trans rfl, h.2⟩

/-- Claim C3: with capacity 16 (the default `LOGBUF_LENGTH`), writing
`"1234567890"` and then `"abcdefghij"` to a fresh buffer makes the
logical log content (part 0 then part 1 of `getLog`) read exactly
`"[...] bcdefghij"`, for any initial buffer memory. -/
theorem c3_rollover_fixture : ∀ mem : Nat → Nat,
    LogBuffer.reconstruct (LogBuffer.writeStr (LogBuffer.writeStr
        (LogBuffer.mk0 16 false mem) [49, 50, 51, 52, 53, 54, 55, 56, 57, 48])
        [97, 98, 99, 100, 101, 102, 103, 104, 105, 106]) =
      [91, 46, 46, 46, 93, 32, 98, 99, 100, 101, 102, 103, 104, 105, 106] := by
  intro mem
  have hpost := LogBuffer.processCalls_inv (show 8 ≤ 16 by omega) false mem
    [[49, 50, 51, 52, 53, 54, 55, 56, 57, 48],
     [97, 98, 99, 100, 101, 102, 103, 104, 105, 106]]
  have hw : ([[49, 50, 51, 52, 53, 54, 55, 56, 57, 48],
      [97, 98, 99, 100, 101, 102, 103, 104, 105, 106]].map
        (LogBuffer.expandEnc false)).flatten =
      [49, 50, 51, 52, 53, 54, 55, 56, 57, 48,
       97, 98, 99, 100, 101, 102, 103, 104, 105, 106] := by decide
  rw [hw] at hpost
  rcases hpost with ⟨_, hlen, _⟩ | ⟨hge, hclip⟩
  · exact absurd hlen (by decide)
  · have h := LogBuffer.reconstruct_clipped (show 8 ≤ 16 by omega) hclip hge (by decide)
    exact h.trans (by decide)

/-- Claim C4: for any buffer state reached by a sequence of complete
`write(const char *)` calls, draining the chunked
`getLog(targetBuf, maxLen, index, rollCursor)` with a nonzero `maxLen`
(advancing `index` by each return value until a call returns 0)
concatenates to exactly the string the two-call accessor returns. -/
theorem c4_chunked_drain_equivalence (cap : Nat) (enc : Bool) (mem : Nat → Nat)
    (calls : List (List Nat)) (maxLen fuel : Nat) (hcap : 8 ≤ cap)
    (hsize : cap < LogBuffer.SIZE_MOD) (hnz : ∀ m ∈ calls, ∀ b ∈ m, b ≠ 0)
    (hml : maxLen ≠ 0) (hfuel : cap ≤ fuel) :
    LogBuffer.drainLog (LogBuffer.processCalls cap enc mem calls) maxLen fuel 0 0 =
      LogBuffer.reconstruct (LogBuffer.processCalls cap enc mem calls) := by
  have hpost := LogBuffer.processCalls_inv hcap enc mem calls
  have hnzw : ∀ x ∈ (calls.map (LogBuffer.expandEnc enc)).flatten, x ≠ 0 := by
    intro x hx
    rw [List.mem_flatten] at hx
    obtain ⟨s, hs, hxs⟩ := hx
    rw [List.mem_map] at hs
    obtain ⟨m, hm, rfl⟩ := hs
    exact hnz m hm x (LogBuffer.mem_expandEnc hxs)
  have hsz : (LogBuffer.processCalls cap enc mem calls).bufSize = cap := by
    rcases hpost with ⟨⟨h, _⟩, _, _⟩ | ⟨_, h, _⟩ <;> exact h
  have ha : (LogBuffer.processCalls cap enc mem calls).appendIndex <
      (LogBuffer.processCalls cap enc mem calls).bufSize := by
    rw [hsz]
    rcases hpost with ⟨⟨_, _, hai, hlt, _⟩, _, _⟩ | ⟨_, _, _, hai, _⟩
    · rw [hai]
      exact hlt
    · rw [hai]
      exact Nat.mod_lt _ (by omega)
  have hr := LogBuffer.rawLog_eq_reconstruct hcap hpost hnzw
  have hrawlen : LogBuffer.rawLen (LogBuffer.processCalls cap enc mem calls) < fuel := by
    unfold LogBuffer.rawLen
    split <;> omega
  rw [← hr]
  exact LogBuffer.drainLog_eq_rawLog (by rw [hsz]; exact hsize) ha hml hrawlen 0

theorem c4_chunked_drain_equivalence_witness :
    LogBuffer.drainLog (LogBuffer.processCalls 16 false (fun _ => 0)
        [[72, 101, 108, 108, 111], [87, 111, 114, 108, 100, 33, 33, 33, 33, 33, 33, 33]])
        5 16 0 0 =
      LogBuffer.reconstruct (LogBuffer.processCalls 16 false (fun _ => 0)
        [[72, 101, 108, 108, 111], [87, 111, 114, 108, 100, 33, 33, 33, 33, 33, 33, 33]]) :=
  c4_chunked_drain_equivalence 16 false (fun _ => 0)
    [[72, 101, 108, 108, 111], [87, 111, 114, 108, 100, 33, 33, 33, 33, 33, 33, 33]]
    5 16 (by decide) (by decide) (by decide) (by decide) (by decide)

/-- Claim C8: with percent-doubling active, a `write(const char *)` call
stores each `'%'` twice — the stored content is the written string with
every `'%'` doubled — while the return value counts one per source byte
and the write cursor advances by two positions per `'%'` (the cursor
advance being taken modulo the capacity in general, cf.
`LogBuffer.write_appendIndex`). -/
theorem c8_percent_doubling (cap : Nat) (mem : Nat → Nat) (msg : List Nat)
    (hcap : 8 ≤ cap) (hword : cap ≤ 65535) (hnz : ∀ b ∈ msg, b ≠ 0)
    (hmsglen : msg.length < 65536)
    (hle : msg.length + msg.count 37 ≤ cap - 2) :
    (LogBuffer.write (LogBuffer.mk0 cap true mem) msg).2 = msg.length ∧
    (LogBuffer.write (LogBuffer.mk0 cap true mem) msg).1.appendIndex =
      msg.length + msg.count 37 ∧
    LogBuffer.reconstruct (LogBuffer.write (LogBuffer.mk0 cap true mem) msg).1 =
      LogBuffer.expandEnc true msg := by
  have hpost := LogBuffer.writeStr_step hcap msg (LogBuffer.mk0_inv hcap true mem)
  rw [List.nil_append,
    show (LogBuffer.mk0 cap true mem).encodePercent = true from rfl] at hpost
  have helen : (LogBuffer.expandEnc true msg).length = msg.length + msg.count 37 :=
    LogBuffer.expandEnc_true_length msg
  have hnze : ∀ x ∈ LogBuffer.expandEnc true msg, x ≠ 0 :=
    fun x hx => hnz x (LogBuffer.mem_expandEnc hx)
  refine ⟨rfl, ?_, ?_⟩
  · have h := LogBuffer.write_appendIndex (LogBuffer.mk0 cap true mem)
      (by show 0 < cap; omega) (by show 0 < cap; omega) msg
    rw [h]
    show (0 + (LogBuffer.expandEnc true msg).length) % cap = _
    rw [Nat.zero_add, helen,
      Nat.mod_eq_of_lt (show msg.length + msg.count 37 < cap by omega)]
  · rcases hpost with ⟨hfresh, hlen, hnul⟩ | ⟨hge, hclip⟩
    · exact LogBuffer.reconstruct_fresh ⟨hfresh, hlen, hnul⟩ hnze
    · rw [helen] at hge
      omega

/-- Claim C5: with the serial interface usable (set pin wired, port
started, software serial listening, and the available-for-write guard
passing), `enterCommandMode` issues the AT probes in the fixed order
given by `probeSchedule` — (a) pre-set rate, (b) preferred rate,
(c) factory default 9600, all tolerating unexpected bytes, then (d) the
8 supported rates in ascending enum order with exact matching — and the
first probe to match `"OK\r\n"` stops all further probing, fixes the
channel at that probe's baud rate, and makes the call return `true`. -/
theorem c5_probe_order (tool : Hc12.Tool) (resp : Nat → List Nat) (baudRate k : Nat)
    (hpin : tool.setPinNo ≠ 0) (hok : tool.portOk = true)
    (hlisten : tool.listening = true)
    (hwrite : tool.waitForAvailableWrite = 0 ∨ tool.availableForWrite = true)
    (hk : k < (Hc12.probeSchedule tool baudRate).length)
    (hfail : ∀ j, j < k →
      Hc12.probeOk resp ((Hc12.probeSchedule tool baudRate).getD j (0, false)) = false)
    (hsucc : Hc12.probeOk resp
      ((Hc12.probeSchedule tool baudRate).getD k (0, false)) = true) :
    Hc12.enterCommandMode tool resp baudRate =
      (true,
       { tool with baud := ((Hc12.probeSchedule tool baudRate).getD k (0, false)).1 },
       (Hc12.probeSchedule tool baudRate).take (k + 1)) := by
  obtain ⟨sp, fb, wfa, pok, lst, afw, bd⟩ := tool
  dsimp only at hpin hok hlisten hwrite hk hfail hsucc ⊢
  subst hok
  subst hlisten
  have hnumlen : Hc12.HC12_BAUDRATE_NUMERIC.length = 8 := by decide
  have hlen11 :
      (Hc12.probeSchedule ⟨sp, fb, wfa, true, true, afw, bd⟩ baudRate).length = 11 := by
    simp [Hc12.probeSchedule, Hc12.HC12_BAUDRATE_NUMERIC]
  have hk11 : k < 11 := by rw [hlen11] at hk; exact hk
  have hsvc : ∀ t : Hc12.Tool,
      t.waitForAvailableWrite = wfa → t.availableForWrite = afw →
      Hc12.sendValidatedAt t resp true =
        (Hc12.atProbe resp t.baud true, [(t.baud, true)]) := by
    intro t h1 h2
    apply Hc12.sendValidatedAt_send
    rcases hwrite with h | h
    · exact Or.inr (Or.inl (by rw [h1, h]))
    · exact Or.inr (Or.inr (by rw [h2, h]))
  rcases Nat.lt_or_ge k 3 with hk3 | hk3
  · interval_cases k
    · have hs : Hc12.atProbe resp bd true = true := by
        simpa [Hc12.probeOk, Hc12.probeSchedule, -List.getD_eq_getElem?_getD]
          using hsucc
      simp [Hc12.enterCommandMode, hpin, hsvc, hs, Hc12.probeSchedule,
        Hc12.changeBaudRate, -List.getD_eq_getElem?_getD]
    · have h0 : Hc12.atProbe resp bd true = false := by
        simpa [Hc12.probeOk, Hc12.probeSchedule, -List.getD_eq_getElem?_getD]
          using hfail 0 (by omega)
      have hs : Hc12.atProbe resp (Hc12.HC12_BAUDRATE_NUMERIC.getD baudRate 0) true =
          true := by
        simpa [Hc12.probeOk, Hc12.probeSchedule, -List.getD_eq_getElem?_getD]
          using hsucc
      simp [Hc12.enterCommandMode, hpin, hsvc, h0, hs, Hc12.probeSchedule,
        Hc12.changeBaudRate, -List.getD_eq_getElem?_getD]
    · have h0 : Hc12.atProbe resp bd true = false := by
        simpa [Hc12.probeOk, Hc12.probeSchedule, -List.getD_eq_getElem?_getD]
          using hfail 0 (by omega)
      have h1 : Hc12.atProbe resp (Hc12.HC12_BAUDRATE_NUMERIC.getD baudRate 0) true =
          false := by
        simpa [Hc12.probeOk, Hc12.probeSchedule, -List.getD_eq_getElem?_getD]
          using hfail 1 (by omega)
      have hs : Hc12.atProbe resp 9600 true = true := by
        simpa [Hc12.probeOk, Hc12.probeSchedule, -List.getD_eq_getElem?_getD]
          using hsucc
      simp [Hc12.enterCommandMode, hpin, hsvc, h0, h1, hs, Hc12.probeSchedule,
        Hc12.changeBaudRate, -List.getD_eq_getElem?_getD]
  · -- success in the final scan over the 8 supported rates
    have h0 : Hc12.atProbe resp bd true = false := by
      simpa [Hc12.probeOk, Hc12.probeSchedule, -List.getD_eq_getElem?_getD]
        using hfail 0 (by omega)
    have h1 : Hc12.atProbe resp (Hc12.HC12_BAUDRATE_NUMERIC.getD baudRate 0) true =
        false := by
      simpa [Hc12.probeOk, Hc12.probeSchedule, -List.getD_eq_getElem?_getD]
        using hfail 1 (by omega)
    have h2 : Hc12.atProbe resp 9600 true = false := by
      simpa [Hc12.probeOk, Hc12.probeSchedule, -List.getD_eq_getElem?_getD]
        using hfail 2 (by omega)
    have hgd : ∀ j, 3 ≤ j → j < 11 →
        (Hc12.probeSchedule ⟨sp, fb, wfa, true, true, afw, bd⟩ baudRate).getD j
            (0, false) =
          (Hc12.HC12_BAUDRATE_NUMERIC.getD (j - 3) 0, false) := by
      intro j hj3 hj11
      obtain ⟨i, rfl⟩ : ∃ i, j = i + 3 := ⟨j - 3, by omega⟩
      rw [show i + 3 - 3 = i by omega, show i + 3 = i + 1 + 1 + 1 by omega]
      simp only [Hc12.probeSchedule, List.getD_cons_succ]
      rw [List.getD_eq_getElem _ _
          (show i < (Hc12.HC12_BAUDRATE_NUMERIC.map fun r => (r, false)).length by
            simp only [List.length_map, hnumlen]; omega),
        List.getElem_map,
        List.getD_eq_getElem _ _ (show i < Hc12.HC12_BAUDRATE_NUMERIC.length by
          rw [hnumlen]; omega)]
    have hfl : ∀ j, j < k - 3 →
        Hc12.atProbe resp (Hc12.HC12_BAUDRATE_NUMERIC.getD j 0) false = false := by
      intro j hj
      have h := hfail (j + 3) (by omega)
      rw [hgd (j + 3) (by omega) (by omega)] at h
      simpa [Hc12.probeOk] using h
    have hsl : Hc12.atProbe resp (Hc12.HC12_BAUDRATE_NUMERIC.getD (k - 3) 0) false =
        true := by
      have h := hsucc
      rw [hgd k (by omega) (by omega)] at h
      simpa [Hc12.probeOk] using h
    have hd := Hc12.probeLoop_spec_idx resp Hc12.HC12_BAUDRATE_NUMERIC
      (Hc12.changeBaudRate (Hc12.changeBaudRate ⟨sp, fb, wfa, true, true, afw, bd⟩
        (Hc12.HC12_BAUDRATE_NUMERIC.getD baudRate 0)) 9600) (k - 3)
      (by rw [hnumlen]; omega) hfl hsl
    simp only [Hc12.changeBaudRate] at hd
    have htake : (Hc12.probeSchedule ⟨sp, fb, wfa, true, true, afw, bd⟩ baudRate).take
          (k + 1) =
        (bd, true) :: (Hc12.HC12_BAUDRATE_NUMERIC.getD baudRate 0, true) ::
          (9600, true) ::
          (Hc12.HC12_BAUDRATE_NUMERIC.take (k - 3 + 1)).map (fun r => (r, false)) := by
      rw [show k + 1 = (k - 3 + 1) + 1 + 1 + 1 by omega]
      simp only [Hc12.probeSchedule, List.take_succ_cons]
      rw [← List.map_take]
    have hbval : ((Hc12.probeSchedule ⟨sp, fb, wfa, true, true, afw, bd⟩ baudRate).getD k
          (0, false)).1 =
        Hc12.HC12_BAUDRATE_NUMERIC.getD (k - 3) 0 := by
      rw [hgd k (by omega) (by omega)]
    rw [htake, hbval]
    simp [Hc12.enterCommandMode, hpin, hsvc, h0, h1, h2, hd, Hc12.changeBaudRate,
      -List.getD_eq_getElem?_getD]

theorem c5_probe_order_witness :
    (5 : Nat) ≠ 0 ∧
    Hc12.enterCommandMode
        { setPinNo := 5, fallbackSerialTo := 9600, waitForAvailableWrite := 0,
          portOk := true, listening := true, availableForWrite := true, baud := 1200 }
        (fun b => if b = 4800 then [79, 75, 13, 10] else []) 7 =
      (true,
       { setPinNo := 5, fallbackSerialTo := 9600, waitForAvailableWrite := 0,
         portOk := true, listening := true, availableForWrite := true, baud := 4800 },
       [(1200, true), (115200, true), (9600, true), (1200, false), (2400, false),
        (4800, false)]) := by
  have h := c5_probe_order
    { setPinNo := 5, fallbackSerialTo := 9600, waitForAvailableWrite := 0,
      portOk := true, listening := true, availableForWrite := true, baud := 1200 }
    (fun b => if b = 4800 then [79, 75, 13, 10] else []) 7 5
    (by decide) (by decide) (by decide) (by decide) (by decide)
    (by intro j hj; interval_cases j <;> decide) (by decide)
  exact ⟨by decide, h.trans (by decide)⟩

/-- Claim C6, counterexample to the "left unchanged" part: a run with
fallback configured to 0 in which every probe attempt fails (the trace
shows all 11 probes issued, the result is `false`) ends with the
channel at the last scanned rate 115200, not at its initial rate
1200. -/
theorem c6_counterexample :
    Hc12.enterCommandMode
        { setPinNo := 5, fallbackSerialTo := 0, waitForAvailableWrite := 0,
          portOk := true, listening := true, availableForWrite := true, baud := 1200 }
        (fun _ => []) 3 =
      (false,
       { setPinNo := 5, fallbackSerialTo := 0, waitForAvailableWrite := 0,
         portOk := true, listening := true, availableForWrite := true, baud := 115200 },
       [(1200, true), (9600, true), (9600, true), (1200, false), (2400, false),
        (4800, false), (9600, false), (19200, false), (38400, false), (57600, false),
        (115200, false)]) ∧
    (115200 : Nat) ≠ 1200 := by decide

/-- Claim C6 (amended): when every probe attempt of `enterCommandMode`
fails, the call returns `false`; if the configured fallback baud rate is
nonzero the channel is set to the fallback rate, and if the fallback is
zero the fallback step performs no change, leaving the channel at the
last rate probed during the exhaustive scan, 115200 (not at the rate it
had before the call, which the probing itself already changed). -/
theorem c6_fallback_behaviour (tool : Hc12.Tool) (resp : Nat → List Nat)
    (baudRate : Nat) (hpin : tool.setPinNo ≠ 0) (hok : tool.portOk = true)
    (hfail : ∀ b t, Hc12.atProbe resp b t = false) :
    (Hc12.enterCommandMode tool resp baudRate).1 = false ∧
    (Hc12.enterCommandMode tool resp baudRate).2.1 =
      { tool with baud := if 0 < tool.fallbackSerialTo then tool.fallbackSerialTo
          else 115200 } := by
  obtain ⟨sp, fb, wfa, pok, lst, afw, bd⟩ := tool
  dsimp only at hpin hok ⊢
  subst hok
  have hsf : ∀ (t : Hc12.Tool) (b : Bool), (Hc12.sendValidatedAt t resp b).1 = false :=
    fun t b => Hc12.sendValidatedAt_fail hfail
  have hd := Hc12.probeLoop_all_fail resp Hc12.HC12_BAUDRATE_NUMERIC
    ⟨sp, fb, wfa, true, lst, afw, 9600⟩ (fun r _ => hfail r false)
  have hlast : Hc12.HC12_BAUDRATE_NUMERIC.getLast?.getD (9600 : Nat) = 115200 := by
    decide
  constructor
  · cases lst <;>
      simp [Hc12.enterCommandMode, hpin, hsf, hd, hlast, Hc12.changeBaudRate,
        -List.getD_eq_getElem?_getD]
  · cases lst <;> by_cases hfb : 0 < fb <;>
      simp [Hc12.enterCommandMode, hpin, hsf, hd, hlast, hfb, Hc12.changeBaudRate,
        -List.getD_eq_getElem?_getD]

theorem c6_fallback_behaviour_witness :
    (Hc12.enterCommandMode
        { setPinNo := 5, fallbackSerialTo := 9600, waitForAvailableWrite := 0,
          portOk := true, listening := true, availableForWrite := true, baud := 1200 }
        (fun _ => []) 3).1 = false ∧
    (Hc12.enterCommandMode
        { setPinNo := 5, fallbackSerialTo := 9600, waitForAvailableWrite := 0,
          portOk := true, listening := true, availableForWrite := true, baud := 1200 }
        (fun _ => []) 3).2.1 =
      { setPinNo := 5, fallbackSerialTo := 9600, waitForAvailableWrite := 0,
        portOk := true, listening := true, availableForWrite := true, baud := 9600 } := by
  have h := c6_fallback_behaviour
    { setPinNo := 5, fallbackSerialTo := 9600, waitForAvailableWrite := 0,
      portOk := true, listening := true, availableForWrite := true, baud := 1200 }
    (fun _ => []) 3 (by decide) (by decide) (fun b t => rfl)
  exact ⟨h.1, h.2.trans (by decide)⟩

/-- Claim C7: for any parameter driven through `configure`, if the
response to the query command already carries the desired value, no
set-command bytes are written to the channel and the call reports
success; only when the query round does not match is the set command
(and its value) sent, the echoed response then being validated. -/
theorem c7_configure_query_short_circuit
    (qc eqResp eqValue sc cv esr : List Nat)
    (hq : ∀ b ∈ eqResp, b ≠ 0) (hv : ∀ b ∈ eqValue, b ≠ 0)
    (hr : ∀ b ∈ esr, b ≠ 0) (hcv : ∀ b ∈ cv, b ≠ 0) :
    (∀ rest setIn, Hc12.configure qc eqResp eqValue sc cv esr
        (eqResp ++ eqValue ++ rest) setIn = (true, [qc])) ∧
    (∀ queryIn setIn, Hc12.queryMatches eqResp eqValue queryIn = false →
      (Hc12.configure qc eqResp eqValue sc cv esr queryIn setIn).2 = [qc, sc, cv]) ∧
    (∀ queryIn rest2, Hc12.queryMatches eqResp eqValue queryIn = false →
      Hc12.configure qc eqResp eqValue sc cv esr queryIn (esr ++ cv ++ rest2) =
        (true, [qc, sc, cv])) := by
  refine ⟨?_, ?_, ?_⟩
  · intro rest setIn
    unfold Hc12.configure
    rw [if_pos (Hc12.queryMatches_leading hq hv rest)]
  · intro queryIn setIn h
    unfold Hc12.configure
    rw [if_neg (by simp [h])]
  · intro queryIn rest2 h
    unfold Hc12.configure
    rw [if_neg (by simp [h])]
    rw [List.append_assoc, Hc12.readExpectedResponse_leading esr hr false (cv ++ rest2)]
    simp [Hc12.readExpectedResponse_leading cv hcv false rest2]

theorem c7_configure_query_short_circuit_witness :
    Hc12.configure [65] [79, 75] [52, 56] [66] [52, 56] [79, 75]
        ([79, 75] ++ [52, 56] ++ [13, 10]) [] = (true, [[65]]) ∧
    (Hc12.configure [65] [79, 75] [52, 56] [66] [52, 56] [79, 75] [88] []).2 =
      [[65], [66], [52, 56]] ∧
    Hc12.configure [65] [79, 75] [52, 56] [66] [52, 56] [79, 75] [88]
        ([79, 75] ++ [52, 56] ++ []) = (true, [[65], [66], [52, 56]]) := by
  have h := c7_configure_query_short_circuit [65] [79, 75] [52, 56] [66] [52, 56]
    [79, 75] (by decide) (by decide) (by decide) (by decide)
  exact ⟨h.1 [13, 10] [], h.2.1 [88] [] (by decide), h.2.2 [88] [] (by decide)⟩

/-- Claim C9: out-of-range parameter values — channel outside 1–127,
transmission power outside levels 1–8, transmission mode outside 1–4 —
are rejected before any command is sent on the channel (the list of
written commands is empty), the rejection is logged, and nothing else
happens. -/
theorem c9_invalid_parameter_rejection (channel power mode : Nat)
    (queryIn setIn : List Nat) :
    ((channel = 0 ∨ 127 < channel) →
      Hc12.configureChannel channel queryIn setIn = ([], ["invalid channel"])) ∧
    ((power = 0 ∨ 8 < power) →
      Hc12.configureTransmissionPower power queryIn setIn = ([], ["invalid power"])) ∧
    ((mode = 0 ∨ 4 < mode) →
      Hc12.configureTransmissionMode mode queryIn setIn = ([], ["invalid mode"])) := by
  refine ⟨?_, ?_, ?_⟩
  · intro h
    unfold Hc12.configureChannel
    rw [if_neg (by rintro ⟨h1, h2⟩; rcases h with h | h <;> omega)]
  · intro h
    unfold Hc12.configureTransmissionPower
    rw [if_neg (by rintro ⟨h1, h2⟩; rcases h with h | h <;> omega)]
  · intro h
    unfold Hc12.configureTransmissionMode
    rw [if_neg (by rintro ⟨h1, h2⟩; rcases h with h | h <;> omega)]

theorem c9_invalid_parameter_rejection_witness :
    ((128 : Nat) = 0 ∨ 127 < 128) ∧
    Hc12.configureChannel 128 [] [] = ([], ["invalid channel"]) ∧
    Hc12.configureTransmissionPower 9 [] [] = ([], ["invalid power"]) ∧
    Hc12.configureTransmissionMode 5 [] [] = ([], ["invalid mode"]) := by
  have h := c9_invalid_parameter_rejection 128 9 5 [] []
  exact ⟨by decide, h.1 (by decide), h.2.1 (by decide), h.2.2 (by decide)⟩

/-- Claim C10: the tolerant response matcher consumes a mismatching byte
and restarts matching at position 0 without reconsidering that byte; the
stream `"OOK\r\n"` contains the expected response `"OK\r\n"` as a
contiguous substring (overlapping the partial match on the first `'O'`),
yet `readExpectedResponse` with `tolerateUnexpected = true` consumes the
whole stream and returns `false`. -/
theorem c10_tolerant_matcher_misses_overlap :
    (∃ front back, [79, 79, 75, 13, 10] = front ++ [79, 75, 13, 10] ++ back) ∧
    Hc12.readExpectedResponse [79, 75, 13, 10] true [79, 79, 75, 13, 10] 0 =
      (false, []) :=
  ⟨⟨[79], [], rfl⟩, by decide⟩

theorem c8_percent_doubling_witness :
    (LogBuffer.write (LogBuffer.mk0 16 true (fun _ => 0)) [97, 37, 98]).2 =
      [97, 37, 98].length ∧
    (LogBuffer.write (LogBuffer.mk0 16 true (fun _ => 0)) [97, 37, 98]).1.appendIndex =
      [97, 37, 98].length + [97, 37, 98].count 37 ∧
    LogBuffer.reconstruct
        (LogBuffer.write (LogBuffer.mk0 16 true (fun _ => 0)) [97, 37, 98]).1 =
      LogBuffer.expandEnc true [97, 37, 98] :=
  c8_percent_doubling 16 (fun _ => 0) [97, 37, 98] (by decide) (by decide)
    (by decide) (by decide) (by decide)
